import Mathlib

/-!
Verification of plot_audio_histogram: peak / RMS histograms over dBFS buckets.

A shallow embedding of the histogram core of `main.cpp`.

* A finite `double` is embedded as its exact value in a linearly ordered field `α`; a value is
  a finite double only if its magnitude is at most `MAX_SAMPLE`.  The definitions are generic
  and computable.  The libm functions `pow`, `log`, `sqrt` are parameters.  The theorem that
  characterises each bucket by its two boundaries takes `pow` as a parameter, so that it holds
  for the boundaries the program computes, which are doubles (`pow_double` is such a `pow`);
  the other theorems instantiate the parameters with `Real.rpow`, `Real.log`, `Real.sqrt`.
* The arithmetic of `get_window_rms` is exact.  What IEEE 754 adds to it, overflow of the sum
  of squares to `+inf` and the NaN of `0.0 / 0`, is made explicit in `get_window_rms_ieee`,
  which the RMS loop uses; the rounding of the individual operations is not modelled.
* `std::map<double, int>` is an association list in strictly ascending key order, with the
  counts as `Nat`.  `increment` is `it->second++` without overflow: in the peak pass a count
  is at most the number of samples of the channel, which is bounded by `int nread`.
  `increment_int` makes the signed overflow of the `int` count explicit; the RMS loop, which
  can go on incrementing for ever when the window size is `0`, uses it.
* Loop counters (`size_t i`, `int start`, `int win_size`) cannot wrap
  (`i < content.size() ≤ INT_MAX` and `0 ≤ win_50ms ≤ INT_MAX`).
-/

namespace PlotAudioHistogram

section Model

variable {α : Type} [LinearOrderedField α]

/-- The constant `MAX_SAMPLE = std::numeric_limits<double>::max()`, the largest finite
double `(2 - 2^-52) * 2^1023`. -/
def MAX_SAMPLE (α : Type) [LinearOrderedField α] : α := 2 ^ 1024 - 2 ^ 971

/-- The type `std::map<double, int>`: entries in strictly ascending key order. -/
abbrev Hist (α : Type) := List (α × Nat)

/-- The statement `m[k] = v` on a `std::map`: the value is overwritten when the key is
present (neither key is less than the other), and inserted at its place in key order
otherwise. -/
def Hist.assign : Hist α → α → Nat → Hist α
  | [], k, v => [(k, v)]
  | (k', v') :: rest, k, v =>
    if k < k' then (k, v) :: (k', v') :: rest
    else if k' < k then (k', v') :: Hist.assign rest k v
    else (k', v) :: rest

/-- The expression `m[k]` read at report time: the stored count, `0` for an absent key. -/
def Hist.lookup : Hist α → α → Nat
  | [], _ => 0
  | (k', v') :: rest, k =>
    if k < k' then 0
    else if k' < k then Hist.lookup rest k
    else v'

/-- The function `fromdbfs`: `pow(10, dbfs / 20)`, over the libm function `pow`. -/
def fromdbfs (pow : α → α → α) (dbfs : α) : α := pow 10 (dbfs / 20)

/-- Rounding of a real to the nearest binary64 number, with 53 significant bits and the
exponent range taken as unbounded (IEEE 754 round-to-nearest away from the overflow and
subnormal ranges; a tie, which IEEE rounds to even, is rounded up). -/
def round_double {α : Type} [LinearOrderedField α] [FloorRing α] (x : α) : α :=
  (round (x / (2 : α) ^ (Int.log 2 |x| - 52)) : α) * (2 : α) ^ (Int.log 2 |x| - 52)

/-- A correctly rounded libm `pow`: the real power, rounded to the nearest double.  It is one
`pow` for which the boundaries computed by `fromdbfs` are doubles; `pow(10, -1.0)`, the
boundary of `-20` dBFS, is the double nearest to `1/10`. -/
noncomputable def pow_double (b e : ℝ) : ℝ := round_double (b ^ e)

/-- The values taken by `dbfs` in `for (int dbfs = 0; dbfs >= -140; dbfs--)`, in order. -/
def dbfs_values : List Int := (List.range 141).map (fun i : Nat => -(i : Int))

/-- The table `hist_template` of `main` (lines 228-232): `hist_template[MAX_SAMPLE] = 0`,
then `hist_template[fromdbfs(dbfs)] = 0` for `dbfs = 0, -1, ..., -140`. -/
def hist_template (pow : α → α → α) : Hist α :=
  dbfs_values.foldl (fun (m : Hist α) (dbfs : Int) => Hist.assign m (fromdbfs pow (dbfs : α)) 0)
    (Hist.assign [] (MAX_SAMPLE α) 0)

/-- The call `m.lower_bound(x)`: the position of the first entry whose key is not less than
`x`.  The position `m.length` is `end()`. -/
def lower_bound : Hist α → α → Nat
  | [], _ => 0
  | (k, _) :: rest, x => if k < x then lower_bound rest x + 1 else 0

/-- The statement `it->second++` for the iterator at position `it`.  Dereferencing `end()` is
undefined behaviour: `none`. -/
def increment : Hist α → Nat → Option (Hist α)
  | [], _ => none
  | (k, c) :: rest, 0 => some ((k, c + 1) :: rest)
  | p :: rest, it + 1 => (increment rest it).map (fun rest' => p :: rest')

/-- The peak loop of `main` (lines 245-248):
`for (auto && sample : content) hist_pk.lower_bound(std::abs(sample))->second++;`. -/
def peak_pass (hist_pk : Hist α) (content : List α) : Option (Hist α) :=
  content.foldlM (fun h sample => increment h (lower_bound h |sample|)) hist_pk

/-- The loop `for (int i = start; i < start+win_size; i++) result += signal[i] * signal[i];`
of `get_window_rms`, with the number of iterations still to run, the current `i` and the
current `result`.  A read outside the signal is undefined behaviour: `none`. -/
def sum_squares (signal : List α) : Nat → Int → α → Option α
  | 0, _, result => some result
  | n + 1, i, result =>
    if 0 ≤ i then
      match signal[i.toNat]? with
      | some s => sum_squares signal n (i + 1) (result + s * s)
      | none => none
    else none

/-- The function `get_window_rms` (lines 78-93), over the libm function `sqrt`.  A failed
`assert(start < signal_size)` or an out-of-range read is `none`. -/
def get_window_rms (sqrt : α → α) (signal : List α) (start win_size : Int) : Option α :=
  let signal_size : Int := signal.length
  if start < signal_size then
    let signal_remaining := signal_size - start
    let win_size := if win_size > signal_remaining then signal_remaining else win_size
    (sum_squares signal ((start + win_size) - start).toNat start 0).map
      (fun result => sqrt (result / (win_size : α)))
  else none

/-- The line `int win_50ms = sfinfo1.samplerate / 200;`.  The sample rate is the positive
integer delivered by the sample source. -/
def win_50ms (samplerate : Nat) : Nat := samplerate / 200

/-- Outcome of running a loop with a bound on the number of iterations: finished with a
value, hit undefined behaviour, or still iterating when the bound ran out. -/
inductive Run (β : Type) where
  | done (b : β) : Run β
  | undefined : Run β
  | running : Run β
deriving DecidableEq

/-- The value of a `double` expression: a finite number, `+inf`, or NaN. -/
inductive DoubleVal (α : Type) where
  | finite (x : α) : DoubleVal α
  | inf : DoubleVal α
  | nan : DoubleVal α

/-- The `double` that `get_window_rms` (lines 78-93) returns under IEEE 754, on a signal of
finite samples.  The squares added at line 89 are non-negative, so the running `result`
leaves the finite range at some iteration exactly when the complete sum does; it is then
`+inf`, and so are `result / win_size` and its `sqrt`.  With a window of `0` frames no
iteration runs and line 92 computes `0.0 / 0`, which is NaN, and `sqrt` of NaN is NaN.
Otherwise the value is the one of `get_window_rms`. -/
def get_window_rms_ieee (sqrt : α → α) (signal : List α) (start win_size : Int) :
    Option (DoubleVal α) :=
  let signal_size : Int := signal.length
  if start < signal_size then
    let signal_remaining := signal_size - start
    let win_size := if win_size > signal_remaining then signal_remaining else win_size
    match sum_squares signal ((start + win_size) - start).toNat start 0 with
    | none => none
    | some result =>
      if MAX_SAMPLE α < result then some DoubleVal.inf
      else if win_size = 0 then some DoubleVal.nan
      else some (DoubleVal.finite (sqrt (result / (win_size : α))))
  else none

/-- The call `m.lower_bound(v)` for a `double` `v`.  Every key is less than `+inf`, so the
result is `end()`; every comparison `key < NaN` is false, so the first entry is found. -/
def lower_bound_ieee (m : Hist α) : DoubleVal α → Nat
  | DoubleVal.finite x => lower_bound m x
  | DoubleVal.inf => m.length
  | DoubleVal.nan => 0

/-- The constant `INT_MAX` of a 32-bit `int`. -/
def INT_MAX : Nat := 2147483647

/-- The statement `it->second++` on the `int` count, with its overflow: incrementing a count
of `INT_MAX` is undefined behaviour (`none`), as is dereferencing `end()`. -/
def increment_int : Hist α → Nat → Option (Hist α)
  | [], _ => none
  | (k, c) :: rest, 0 => if c < INT_MAX then some ((k, c + 1) :: rest) else none
  | p :: rest, it + 1 => (increment_int rest it).map (fun rest' => p :: rest')

/-- One iteration of the RMS loop of `main` (lines 251-254) at offset `i`:
`auto rms = get_window_rms(content, i, win_50ms); hist_rms.lower_bound(rms)->second++;`
followed by the loop's `i += win_50ms`.  Returns the next offset and histogram. -/
def rms_body (sqrt : α → α) (content : List α) (win_50ms : Nat) (i : Nat) (hist_rms : Hist α) :
    Option (Nat × Hist α) :=
  match get_window_rms_ieee sqrt content (i : Int) (win_50ms : Int) with
  | none => none
  | some rms =>
    (increment_int hist_rms (lower_bound_ieee hist_rms rms)).map (fun h => (i + win_50ms, h))

/-- The RMS loop `for (size_t i = 0; i < content.size(); i += win_50ms)` of `main`, started at
offset `i`, run for at most `fuel` evaluations of the loop condition. -/
def rms_loop (sqrt : α → α) (content : List α) (win_50ms : Nat) :
    Nat → Nat → Hist α → Run (Hist α)
  | 0, _, _ => Run.running
  | fuel + 1, i, hist_rms =>
    if i < content.length then
      match rms_body sqrt content win_50ms i hist_rms with
      | none => Run.undefined
      | some (i', h) => rms_loop sqrt content win_50ms fuel i' h
    else Run.done hist_rms

/-- The function `find_max_value` (lines 176-185): `assert(!m.empty())`, then the count of
`std::max_element` under the comparison `p1.second < p2.second`. -/
def find_max_value : Hist α → Option Nat
  | [] => none
  | p :: rest => some (rest.foldl (fun largest q => if largest < q.2 then q.2 else largest) p.2)

/-- The struct `ChannelData`. -/
structure ChannelData (α : Type) where
  hist_pk : Hist α
  hist_rms : Hist α
  max_num_of_pk : Nat
  max_num_of_rms : Nat

/-- The de-interleaving loop of `main` (lines 238-241) for channel `ch`:
`content.resize(nread / num_of_ch); content[i] = content_all[i * num_of_ch + ch];`. -/
def split_channel (content_all : List α) (nread num_of_ch ch : Nat) : List α :=
  (List.range (nread / num_of_ch)).map (fun i => content_all.getD (i * num_of_ch + ch) 0)

/-- The histogram work of `main` for one channel (lines 245-257) on its signal `content`,
starting from the template: peak pass, RMS loop, then the two `find_max_value` calls. -/
def process_channel (sqrt : α → α) (template : Hist α) (content : List α) (win_50ms : Nat)
    (fuel : Nat) : Run (ChannelData α) :=
  match peak_pass template content with
  | none => Run.undefined
  | some hist_pk =>
    match rms_loop sqrt content win_50ms fuel 0 template with
    | Run.running => Run.running
    | Run.undefined => Run.undefined
    | Run.done hist_rms =>
      match find_max_value hist_pk, find_max_value hist_rms with
      | some mpk, some mrms => Run.done ⟨hist_pk, hist_rms, mpk, mrms⟩
      | _, _ => Run.undefined

/-- The report value `100.0 * count / max_count` of lines 282-283. -/
def scaled (count max_count : Nat) : α := 100 * (count : α) / (max_count : α)

/-- The two data columns of channel `cd` in the row of `bucket` (lines 278-285). -/
def report_cells (cd : ChannelData α) (bucket : α) : α × α :=
  (scaled (Hist.lookup cd.hist_pk bucket) cd.max_num_of_pk,
   scaled (Hist.lookup cd.hist_rms bucket) cd.max_num_of_rms)

/-- Modelled from the spec: re-interleaving of `num_of_ch` channel signals of `frames` samples
each, `out[i * num_of_ch + c] = signal[c][i]`.  The source has no re-interleaver; this is the
inverse the round-trip property is stated against. -/
def reinterleave (signals : List (List α)) (frames num_of_ch : Nat) : List α :=
  (List.range (frames * num_of_ch)).map
    (fun j => (signals.getD (j % num_of_ch) []).getD (j / num_of_ch) 0)

end Model

/-! Section: Ordered-map lemmas. -/

section MapLemmas

variable {α : Type} [LinearOrderedField α]

theorem lower_bound_le_length (m : Hist α) (x : α) : lower_bound m x ≤ m.length := by
  induction m with
  | nil => simp [lower_bound]
  | cons p rest ih =>
    obtain ⟨k, c⟩ := p
    by_cases h : k < x
    · simp [lower_bound, h, ih]
    · simp [lower_bound, h]

/-- When some key is not less than `x`, `lower_bound` does not return `end()`. -/
theorem lower_bound_lt_length (m : Hist α) (x : α) (hex : ∃ p ∈ m, ¬ p.1 < x) :
    lower_bound m x < m.length := by
  induction m with
  | nil => obtain ⟨p, hp, _⟩ := hex; simp at hp
  | cons q rest ih =>
    obtain ⟨k, c⟩ := q
    by_cases h : k < x
    · obtain ⟨p, hp, hpx⟩ := hex
      have hrest : ∃ p ∈ rest, ¬ p.1 < x := by
        rcases List.mem_cons.1 hp with rfl | hp'
        · exact absurd h hpx
        · exact ⟨p, hp', hpx⟩
      simp [lower_bound, h, ih hrest]
    · simp [lower_bound, h]

/-- Every entry before the position returned by `lower_bound` has a key less than `x`. -/
theorem lower_bound_before (m : Hist α) (x : α) (j : Nat) (p : α × Nat)
    (hj : j < lower_bound m x) (hp : m[j]? = some p) : p.1 < x := by
  induction m generalizing j with
  | nil => simp at hp
  | cons q rest ih =>
    obtain ⟨k, c⟩ := q
    by_cases h : k < x
    · cases j with
      | zero => simp at hp; subst hp; exact h
      | succ j =>
        simp only [lower_bound, h, if_true, Nat.add_lt_add_iff_right] at hj
        simp only [List.getElem?_cons_succ] at hp
        exact ih j hj hp
    · simp [lower_bound, h] at hj

/-- The entry at the position returned by `lower_bound` has a key not less than `x`. -/
theorem lower_bound_at (m : Hist α) (x : α) (p : α × Nat)
    (hp : m[lower_bound m x]? = some p) : ¬ p.1 < x := by
  induction m with
  | nil => simp at hp
  | cons q rest ih =>
    obtain ⟨k, c⟩ := q
    by_cases h : k < x
    · simp only [lower_bound, h, if_true, List.getElem?_cons_succ] at hp
      exact ih hp
    · simp only [lower_bound, h, if_false, List.getElem?_cons_zero, Option.some.injEq] at hp
      subst hp; exact h

/-- In a map with ascending keys, the entry found by `lower_bound` has the least key among
the keys not less than `x`. -/
theorem lower_bound_least (m : Hist α) (x : α) (hs : (m.map Prod.fst).Pairwise (· < ·))
    (p : α × Nat) (hp : m[lower_bound m x]? = some p) (q : α × Nat) (hq : q ∈ m)
    (hqx : ¬ q.1 < x) : p.1 ≤ q.1 := by
  induction m with
  | nil => simp at hp
  | cons r rest ih =>
    obtain ⟨k, c⟩ := r
    simp only [List.map_cons, List.pairwise_cons] at hs
    by_cases h : k < x
    · simp only [lower_bound, h, if_true, List.getElem?_cons_succ] at hp
      rcases List.mem_cons.1 hq with rfl | hq'
      · exact absurd h hqx
      · exact ih hs.2 hp hq'
    · simp only [lower_bound, h, if_false, List.getElem?_cons_zero, Option.some.injEq] at hp
      subst hp
      rcases List.mem_cons.1 hq with rfl | hq'
      · exact le_rfl
      · exact le_of_lt (hs.1 q.1 (List.mem_map_of_mem _ hq'))

omit [LinearOrderedField α] in
/-- The statement `it->second++` at a valid position replaces exactly that entry, keeping its
key and adding one to its count. -/
theorem increment_eq_set (m : Hist α) (i : Nat) (k : α) (c : Nat) (h : m[i]? = some (k, c)) :
    increment m i = some (m.set i (k, c + 1)) := by
  induction m generalizing i with
  | nil => simp at h
  | cons q rest ih =>
    cases i with
    | zero =>
      simp only [List.getElem?_cons_zero, Option.some.injEq] at h
      subst h; simp [increment]
    | succ i =>
      simp only [List.getElem?_cons_succ] at h
      simp [increment, ih i h]

omit [LinearOrderedField α] in
/-- An increment keeps the keys and adds one to the sum of the counts. -/
theorem increment_keys_sum (m m' : Hist α) (i : Nat) (h : increment m i = some m') :
    m'.map Prod.fst = m.map Prod.fst ∧ (m'.map Prod.snd).sum = (m.map Prod.snd).sum + 1 := by
  induction m generalizing i m' with
  | nil => simp [increment] at h
  | cons q rest ih =>
    obtain ⟨k, c⟩ := q
    cases i with
    | zero =>
      simp only [increment, Option.some.injEq] at h
      subst h; simp; omega
    | succ i =>
      simp only [increment, Option.map_eq_some'] at h
      obtain ⟨rest', hr, rfl⟩ := h
      obtain ⟨h1, h2⟩ := ih rest' i hr
      simp [h1, h2]; omega

/-- Assigning a key below every present key puts the new entry in front. -/
theorem assign_of_lt_all (m : Hist α) (k : α) (v : Nat) (h : ∀ p ∈ m, k < p.1) :
    Hist.assign m k v = (k, v) :: m := by
  cases m with
  | nil => rfl
  | cons q rest =>
    obtain ⟨k', v'⟩ := q
    have hk : k < k' := h (k', v') (List.mem_cons_self _ _)
    simp [Hist.assign, hk]

/-- The template after the first `n` rounds of the `dbfs` loop. -/
theorem template_fold (g : Int → α) (M : α)
    (hmono : ∀ d e : Int, -140 ≤ d → d < e → e ≤ 0 → g d < g e) (hmax : g 0 < M)
    (n : Nat) (hn : n ≤ 141) :
    ((List.range n).map (fun i : Nat => -(i : Int))).foldl
        (fun m dbfs => Hist.assign m (g dbfs) 0) [(M, 0)]
      = (List.range n).map (fun i : Nat => (g ((i : Int) + 1 - (n : Int)), 0)) ++ [(M, 0)] := by
  induction n with
  | zero => simp
  | succ n ih =>
    conv_lhs => rw [List.range_succ, List.map_append, List.foldl_append, ih (by omega)]
    simp only [List.map_cons, List.map_nil, List.foldl_cons, List.foldl_nil]
    rw [assign_of_lt_all]
    · rw [List.range_succ_eq_map, List.map_cons, List.map_map]
      simp only [List.cons_append, Nat.cast_zero, zero_add, Nat.cast_add, Nat.cast_one]
      congr 2
      · congr 1; omega
      · apply List.map_congr_left
        intro i _
        simp only [Function.comp_apply, Nat.succ_eq_add_one, Nat.cast_add, Nat.cast_one]
        congr 2; omega
    · intro p hp
      rcases List.mem_append.1 hp with hp | hp
      · obtain ⟨i, hi, rfl⟩ := List.mem_map.1 hp
        have hi' : i < n := List.mem_range.1 hi
        exact hmono _ _ (by omega) (by omega) (by omega)
      · simp only [List.mem_singleton] at hp
        subst hp
        rcases Nat.eq_zero_or_pos n with h0 | h0
        · subst h0; simpa using hmax
        · exact lt_trans (hmono _ 0 (by omega) (by omega) le_rfl) hmax

/-- With boundaries that increase with the dBFS value and stay below `MAX_SAMPLE`, the
template consists of the 141 boundaries for `-140, ..., 0` in this order, followed by the
sentinel, all with count `0`. -/
theorem hist_template_eq (pow : α → α → α)
    (hmono : ∀ d e : Int, -140 ≤ d → d < e → e ≤ 0 →
      fromdbfs pow (d : α) < fromdbfs pow (e : α))
    (hmax : fromdbfs pow ((0 : Int) : α) < MAX_SAMPLE α) :
    hist_template pow
      = (List.range 141).map (fun i : Nat => (fromdbfs pow (((i : Int) - 140 : Int) : α), 0))
          ++ [(MAX_SAMPLE α, 0)] := by
  have h := template_fold (fun d : Int => fromdbfs pow (d : α)) (MAX_SAMPLE α) hmono hmax 141
    le_rfl
  simp only [hist_template, dbfs_values, Hist.assign]
  rw [h]
  congr 1

end MapLemmas

/-! Section: The bucket table over the reals. -/

section Buckets

theorem fromdbfs_rpow (d : ℝ) : fromdbfs Real.rpow d = (10 : ℝ) ^ (d / 20) := rfl

theorem fromdbfs_rpow_pos (d : ℝ) : 0 < fromdbfs Real.rpow d := by
  rw [fromdbfs_rpow]; exact Real.rpow_pos_of_pos (by norm_num) _

theorem fromdbfs_rpow_lt {d e : ℝ} (h : d < e) : fromdbfs Real.rpow d < fromdbfs Real.rpow e := by
  rw [fromdbfs_rpow, fromdbfs_rpow]
  exact (Real.rpow_lt_rpow_left_iff (by norm_num)).2 (by linarith)

theorem fromdbfs_rpow_lt_iff {d e : ℝ} :
    fromdbfs Real.rpow d < fromdbfs Real.rpow e ↔ d < e := by
  rw [fromdbfs_rpow, fromdbfs_rpow, Real.rpow_lt_rpow_left_iff (by norm_num)]
  constructor <;> intro h <;> linarith

theorem fromdbfs_rpow_le_iff {d e : ℝ} :
    fromdbfs Real.rpow d ≤ fromdbfs Real.rpow e ↔ d ≤ e := by
  rw [← not_lt, ← not_lt, fromdbfs_rpow_lt_iff]

theorem fromdbfs_rpow_inj {d e : ℝ} (h : fromdbfs Real.rpow d = fromdbfs Real.rpow e) :
    d = e :=
  le_antisymm (fromdbfs_rpow_le_iff.1 h.le) (fromdbfs_rpow_le_iff.1 h.ge)

theorem fromdbfs_rpow_zero : fromdbfs Real.rpow 0 = 1 := by
  rw [fromdbfs_rpow]; simp

theorem one_lt_MAX_SAMPLE : (1 : ℝ) < MAX_SAMPLE ℝ := by
  unfold MAX_SAMPLE; norm_num

theorem fromdbfs_rpow_lt_MAX {d : ℝ} (h : d ≤ 0) : fromdbfs Real.rpow d < MAX_SAMPLE ℝ :=
  lt_of_le_of_lt (by rw [← fromdbfs_rpow_zero]; exact fromdbfs_rpow_le_iff.2 h)
    one_lt_MAX_SAMPLE

/-- The template over the reals: the boundaries of `-140, ..., 0` dBFS in ascending order,
then the sentinel. -/
theorem hist_template_rpow :
    hist_template Real.rpow
      = (List.range 141).map
          (fun i : Nat => (fromdbfs Real.rpow (((i : Int) - 140 : Int) : ℝ), 0))
          ++ [(MAX_SAMPLE ℝ, 0)] := by
  apply hist_template_eq
  · intro d e _ hde _
    exact fromdbfs_rpow_lt (by exact_mod_cast hde)
  · exact fromdbfs_rpow_lt_MAX (by simp)

theorem hist_template_length : (hist_template Real.rpow).length = 142 := by
  rw [hist_template_rpow]; simp

/-- The keys of the template are the sentinel and the boundaries of `-140, ..., 0` dBFS. -/
theorem mem_template_keys (k : ℝ) :
    k ∈ (hist_template Real.rpow).map Prod.fst ↔
      k = MAX_SAMPLE ℝ ∨ ∃ d : Int, -140 ≤ d ∧ d ≤ 0 ∧ k = fromdbfs Real.rpow (d : ℝ) := by
  rw [hist_template_rpow]
  simp only [List.map_append, List.map_map, List.mem_append, List.mem_map, List.mem_range,
    Function.comp_apply, List.map_cons, List.map_nil, List.mem_singleton]
  constructor
  · rintro (⟨i, hi, rfl⟩ | rfl)
    · exact Or.inr ⟨(i : Int) - 140, by omega, by omega, rfl⟩
    · exact Or.inl rfl
  · rintro (rfl | ⟨d, h1, h2, rfl⟩)
    · exact Or.inr rfl
    · refine Or.inl ⟨(d + 140).toNat, by omega, ?_⟩
      congr 2; omega

/-- The keys of the template are strictly ascending. -/
theorem template_keys_sorted :
    ((hist_template Real.rpow).map Prod.fst).Pairwise (· < ·) := by
  rw [hist_template_rpow]
  simp only [List.map_append, List.map_map, List.map_cons, List.map_nil]
  rw [List.pairwise_append]
  refine ⟨?_, List.pairwise_singleton _ _, ?_⟩
  · rw [List.pairwise_map]
    refine List.Pairwise.imp ?_ (List.pairwise_lt_range 141)
    intro a b hab
    simp only [Function.comp_apply]
    exact fromdbfs_rpow_lt (by exact_mod_cast (by omega : (a : Int) - 140 < (b : Int) - 140))
  · intro a ha b hb
    simp only [List.mem_singleton] at hb
    subst hb
    obtain ⟨i, hi, rfl⟩ := List.mem_map.1 ha
    simp only [Function.comp_apply]
    have hi' : i < 141 := List.mem_range.1 hi
    exact fromdbfs_rpow_lt_MAX (by exact_mod_cast (by omega : (i : Int) - 140 ≤ 0))

/-- A histogram with the template's keys has, for every key, an entry holding it. -/
theorem exists_entry_of_key (hist : Hist ℝ) (k : ℝ)
    (hkeys : hist.map Prod.fst = (hist_template Real.rpow).map Prod.fst)
    (hk : k ∈ (hist_template Real.rpow).map Prod.fst) : ∃ q ∈ hist, q.1 = k := by
  rw [← hkeys] at hk
  obtain ⟨q, hq, rfl⟩ := List.mem_map.1 hk
  exact ⟨q, hq, rfl⟩

/-- On a histogram with the template's keys, `lower_bound` finds an entry for every value
that is at most `MAX_SAMPLE`: the entry with the least key not below the value. -/
theorem lower_bound_template (hist : Hist ℝ) (a : ℝ)
    (hkeys : hist.map Prod.fst = (hist_template Real.rpow).map Prod.fst)
    (hfin : a ≤ MAX_SAMPLE ℝ) :
    ∃ (k : ℝ) (c : Nat), hist[lower_bound hist a]? = some (k, c) ∧
      k ∈ (hist_template Real.rpow).map Prod.fst ∧ a ≤ k ∧ ∀ q ∈ hist, a ≤ q.1 → k ≤ q.1 := by
  obtain ⟨q, hq, hqM⟩ := exists_entry_of_key hist (MAX_SAMPLE ℝ) hkeys
    ((mem_template_keys _).2 (Or.inl rfl))
  have hlt : lower_bound hist a < hist.length :=
    lower_bound_lt_length hist a ⟨q, hq, by rw [hqM]; exact not_lt.2 hfin⟩
  have hget : hist[lower_bound hist a]? = some (hist[lower_bound hist a]) :=
    List.getElem?_eq_getElem hlt
  refine ⟨(hist[lower_bound hist a]).1, (hist[lower_bound hist a]).2, hget, ?_, ?_, ?_⟩
  · rw [← hkeys]
    exact List.mem_map_of_mem _ (List.getElem_mem hlt)
  · exact not_lt.1 (lower_bound_at hist a _ hget)
  · intro r hr har
    exact lower_bound_least hist a (by rw [hkeys]; exact template_keys_sorted) _ hget r hr
      (not_lt.2 har)

/-- The bucket that the least-key rule selects, in terms of the value classified. -/
theorem bucket_of_value (hist : Hist ℝ) (a k : ℝ)
    (hkeys : hist.map Prod.fst = (hist_template Real.rpow).map Prod.fst)
    (hk : k ∈ (hist_template Real.rpow).map Prod.fst) (hak : a ≤ k)
    (hleast : ∀ q ∈ hist, a ≤ q.1 → k ≤ q.1) :
    (k = MAX_SAMPLE ℝ ↔ 1 < a) ∧
    (∀ d : Int, -139 ≤ d → d ≤ 0 →
      (k = fromdbfs Real.rpow (d : ℝ) ↔
        fromdbfs Real.rpow ((d : ℝ) - 1) < a ∧ a ≤ fromdbfs Real.rpow (d : ℝ))) ∧
    (k = fromdbfs Real.rpow (-140) ↔ a ≤ fromdbfs Real.rpow (-140)) := by
  have hleast' : ∀ d : Int, -140 ≤ d → d ≤ 0 → a ≤ fromdbfs Real.rpow (d : ℝ) →
      k ≤ fromdbfs Real.rpow (d : ℝ) := by
    intro d h1 h2 had
    obtain ⟨q, hq, hqk⟩ := exists_entry_of_key hist _ hkeys
      ((mem_template_keys _).2 (Or.inr ⟨d, h1, h2, rfl⟩))
    have := hleast q hq (by rw [hqk]; exact had)
    rwa [hqk] at this
  refine ⟨⟨?_, ?_⟩, ?_, ⟨?_, ?_⟩⟩
  · intro hkM
    by_contra h1
    have := hleast' 0 (by norm_num) le_rfl (by
      simp only [Int.cast_zero, fromdbfs_rpow_zero]; exact not_lt.1 h1)
    simp only [Int.cast_zero, fromdbfs_rpow_zero] at this
    rw [hkM] at this
    exact absurd one_lt_MAX_SAMPLE (not_lt.2 this)
  · intro h1
    rcases (mem_template_keys k).1 hk with h | ⟨d, _, hd0, rfl⟩
    · exact h
    · exfalso
      have : fromdbfs Real.rpow (d : ℝ) ≤ 1 := by
        rw [← fromdbfs_rpow_zero]; exact fromdbfs_rpow_le_iff.2 (by exact_mod_cast hd0)
      linarith
  · intro d hd1 hd0
    constructor
    · intro hkd
      refine ⟨?_, hkd ▸ hak⟩
      by_contra hcon
      have := hleast' (d - 1) (by omega) (by omega) (by
        push_cast; exact not_lt.1 hcon)
      rw [hkd] at this
      have h2 := fromdbfs_rpow_le_iff.1 this
      push_cast at h2
      linarith
    · rintro ⟨hlo, hhi⟩
      have hkle := hleast' d (by omega) hd0 hhi
      rcases (mem_template_keys k).1 hk with h | ⟨e, he1, _, rfl⟩
      · rw [h] at hkle
        exact absurd (fromdbfs_rpow_lt_MAX (by exact_mod_cast hd0)) (not_lt.2 hkle)
      · have hed : e ≤ d := by exact_mod_cast fromdbfs_rpow_le_iff.1 hkle
        have hde : d - 1 < e := by
          have := fromdbfs_rpow_lt_iff.1 (lt_of_lt_of_le hlo hak)
          have h3 : ((d - 1 : Int) : ℝ) < (e : ℝ) := by push_cast; exact this
          exact_mod_cast h3
        have : e = d := by omega
        rw [this]
  · intro hkd
    exact hkd ▸ hak
  · intro ha
    have hkle := hleast' (-140) le_rfl (by norm_num) (by exact_mod_cast ha)
    rcases (mem_template_keys k).1 hk with h | ⟨e, he1, _, rfl⟩
    · rw [h] at hkle
      exact absurd (fromdbfs_rpow_lt_MAX (by norm_num)) (not_lt.2 hkle)
    · have h1 : (e : ℝ) ≤ ((-140 : Int) : ℝ) := fromdbfs_rpow_le_iff.1 hkle
      have h2 : e ≤ -140 := by exact_mod_cast h1
      have : e = -140 := by omega
      rw [this]; norm_num

end Buckets

/-! Section: The bucket table for an arbitrary `pow`. -/

section BucketsAnyPow

variable (pow : ℝ → ℝ → ℝ)

/-- Boundaries that increase strictly with the dBFS value compare like the dBFS values. -/
theorem boundary_le_iff
    (hmono : ∀ d e : Int, -140 ≤ d → d < e → e ≤ 0 →
      fromdbfs pow (d : ℝ) < fromdbfs pow (e : ℝ))
    (d e : Int) (hd : -140 ≤ d) (hd0 : d ≤ 0) (he : -140 ≤ e) (he0 : e ≤ 0) :
    fromdbfs pow (d : ℝ) ≤ fromdbfs pow (e : ℝ) ↔ d ≤ e := by
  constructor
  · intro h
    by_contra hcon
    exact absurd (hmono e d he (by omega) hd0) (not_lt.2 h)
  · intro h
    rcases eq_or_lt_of_le h with rfl | hlt
    · exact le_rfl
    · exact le_of_lt (hmono d e hd hlt he0)

/-- The template for a `pow` whose boundaries increase strictly with the dBFS value and with
`pow(10, 0) = 1`: the boundaries of `-140, ..., 0` dBFS in ascending order, then the
sentinel. -/
theorem hist_template_of
    (hmono : ∀ d e : Int, -140 ≤ d → d < e → e ≤ 0 →
      fromdbfs pow (d : ℝ) < fromdbfs pow (e : ℝ))
    (hone : fromdbfs pow 0 = 1) :
    hist_template pow
      = (List.range 141).map (fun i : Nat => (fromdbfs pow (((i : Int) - 140 : Int) : ℝ), 0))
          ++ [(MAX_SAMPLE ℝ, 0)] := by
  apply hist_template_eq pow hmono
  rw [Int.cast_zero, hone]
  exact one_lt_MAX_SAMPLE

theorem boundary_lt_MAX
    (hmono : ∀ d e : Int, -140 ≤ d → d < e → e ≤ 0 →
      fromdbfs pow (d : ℝ) < fromdbfs pow (e : ℝ))
    (hone : fromdbfs pow 0 = 1) (d : Int) (hd : -140 ≤ d) (hd0 : d ≤ 0) :
    fromdbfs pow (d : ℝ) ≤ 1 ∧ fromdbfs pow (d : ℝ) < MAX_SAMPLE ℝ := by
  have h1 : fromdbfs pow (d : ℝ) ≤ 1 := by
    have := (boundary_le_iff pow hmono d 0 hd hd0 (by norm_num) le_rfl).2 hd0
    rwa [Int.cast_zero, hone] at this
  exact ⟨h1, lt_of_le_of_lt h1 one_lt_MAX_SAMPLE⟩

theorem mem_template_keys_of
    (hmono : ∀ d e : Int, -140 ≤ d → d < e → e ≤ 0 →
      fromdbfs pow (d : ℝ) < fromdbfs pow (e : ℝ))
    (hone : fromdbfs pow 0 = 1) (k : ℝ) :
    k ∈ (hist_template pow).map Prod.fst ↔
      k = MAX_SAMPLE ℝ ∨ ∃ d : Int, -140 ≤ d ∧ d ≤ 0 ∧ k = fromdbfs pow (d : ℝ) := by
  rw [hist_template_of pow hmono hone]
  simp only [List.map_append, List.map_map, List.mem_append, List.mem_map, List.mem_range,
    Function.comp_apply, List.map_cons, List.map_nil, List.mem_singleton]
  constructor
  · rintro (⟨i, hi, rfl⟩ | rfl)
    · exact Or.inr ⟨(i : Int) - 140, by omega, by omega, rfl⟩
    · exact Or.inl rfl
  · rintro (rfl | ⟨d, h1, h2, rfl⟩)
    · exact Or.inr rfl
    · refine Or.inl ⟨(d + 140).toNat, by omega, ?_⟩
      congr 2; omega

theorem template_keys_sorted_of
    (hmono : ∀ d e : Int, -140 ≤ d → d < e → e ≤ 0 →
      fromdbfs pow (d : ℝ) < fromdbfs pow (e : ℝ))
    (hone : fromdbfs pow 0 = 1) :
    ((hist_template pow).map Prod.fst).Pairwise (· < ·) := by
  rw [hist_template_of pow hmono hone]
  simp only [List.map_append, List.map_map, List.map_cons, List.map_nil]
  rw [List.pairwise_append]
  refine ⟨?_, List.pairwise_singleton _ _, ?_⟩
  · rw [List.pairwise_map]
    refine List.Pairwise.imp_of_mem ?_ (List.pairwise_lt_range 141)
    intro a b ha hb hab
    simp only [Function.comp_apply]
    have ha' : a < 141 := List.mem_range.1 ha
    have hb' : b < 141 := List.mem_range.1 hb
    exact hmono _ _ (by omega) (by omega) (by omega)
  · intro a ha b hb
    simp only [List.mem_singleton] at hb
    subst hb
    obtain ⟨i, hi, rfl⟩ := List.mem_map.1 ha
    simp only [Function.comp_apply]
    have hi' : i < 141 := List.mem_range.1 hi
    exact (boundary_lt_MAX pow hmono hone _ (by omega) (by omega)).2

theorem exists_entry_of_key_of (hist : Hist ℝ) (k : ℝ)
    (hkeys : hist.map Prod.fst = (hist_template pow).map Prod.fst)
    (hk : k ∈ (hist_template pow).map Prod.fst) : ∃ q ∈ hist, q.1 = k := by
  rw [← hkeys] at hk
  obtain ⟨q, hq, rfl⟩ := List.mem_map.1 hk
  exact ⟨q, hq, rfl⟩

/-- On a histogram with the keys of the template, `lower_bound` finds an entry for every
value that is at most `MAX_SAMPLE`: the entry with the least key not below the value. -/
theorem lower_bound_template_of
    (hmono : ∀ d e : Int, -140 ≤ d → d < e → e ≤ 0 →
      fromdbfs pow (d : ℝ) < fromdbfs pow (e : ℝ))
    (hone : fromdbfs pow 0 = 1) (hist : Hist ℝ) (a : ℝ)
    (hkeys : hist.map Prod.fst = (hist_template pow).map Prod.fst)
    (hfin : a ≤ MAX_SAMPLE ℝ) :
    ∃ (k : ℝ) (c : Nat), hist[lower_bound hist a]? = some (k, c) ∧
      k ∈ (hist_template pow).map Prod.fst ∧ a ≤ k ∧ ∀ q ∈ hist, a ≤ q.1 → k ≤ q.1 := by
  obtain ⟨q, hq, hqM⟩ := exists_entry_of_key_of pow hist (MAX_SAMPLE ℝ) hkeys
    ((mem_template_keys_of pow hmono hone _).2 (Or.inl rfl))
  have hlt : lower_bound hist a < hist.length :=
    lower_bound_lt_length hist a ⟨q, hq, by rw [hqM]; exact not_lt.2 hfin⟩
  have hget : hist[lower_bound hist a]? = some (hist[lower_bound hist a]) :=
    List.getElem?_eq_getElem hlt
  refine ⟨(hist[lower_bound hist a]).1, (hist[lower_bound hist a]).2, hget, ?_, ?_, ?_⟩
  · rw [← hkeys]
    exact List.mem_map_of_mem _ (List.getElem_mem hlt)
  · exact not_lt.1 (lower_bound_at hist a _ hget)
  · intro r hr har
    exact lower_bound_least hist a
      (by rw [hkeys]; exact template_keys_sorted_of pow hmono hone) _ hget r hr (not_lt.2 har)

/-- The bucket that the least-key rule selects, in terms of the value classified and of the
boundaries `fromdbfs(d)` that the program computes. -/
theorem bucket_of_value_of
    (hmono : ∀ d e : Int, -140 ≤ d → d < e → e ≤ 0 →
      fromdbfs pow (d : ℝ) < fromdbfs pow (e : ℝ))
    (hone : fromdbfs pow 0 = 1) (hist : Hist ℝ) (a k : ℝ)
    (hkeys : hist.map Prod.fst = (hist_template pow).map Prod.fst)
    (hk : k ∈ (hist_template pow).map Prod.fst) (hak : a ≤ k)
    (hleast : ∀ q ∈ hist, a ≤ q.1 → k ≤ q.1) :
    (k = MAX_SAMPLE ℝ ↔ 1 < a) ∧
    (∀ d : Int, -139 ≤ d → d ≤ 0 →
      (k = fromdbfs pow (d : ℝ) ↔
        fromdbfs pow (((d - 1 : Int)) : ℝ) < a ∧ a ≤ fromdbfs pow (d : ℝ))) ∧
    (k = fromdbfs pow ((-140 : Int) : ℝ) ↔ a ≤ fromdbfs pow ((-140 : Int) : ℝ)) := by
  have hleast' : ∀ d : Int, -140 ≤ d → d ≤ 0 → a ≤ fromdbfs pow (d : ℝ) →
      k ≤ fromdbfs pow (d : ℝ) := by
    intro d h1 h2 had
    obtain ⟨q, hq, hqk⟩ := exists_entry_of_key_of pow hist _ hkeys
      ((mem_template_keys_of pow hmono hone _).2 (Or.inr ⟨d, h1, h2, rfl⟩))
    have := hleast q hq (by rw [hqk]; exact had)
    rwa [hqk] at this
  refine ⟨⟨?_, ?_⟩, ?_, ⟨?_, ?_⟩⟩
  · intro hkM
    by_contra h1
    have := hleast' 0 (by norm_num) le_rfl (by
      rw [Int.cast_zero, hone]; exact not_lt.1 h1)
    rw [Int.cast_zero, hone, hkM] at this
    exact absurd one_lt_MAX_SAMPLE (not_lt.2 this)
  · intro h1
    rcases (mem_template_keys_of pow hmono hone k).1 hk with h | ⟨d, hd, hd0, rfl⟩
    · exact h
    · exfalso
      have := (boundary_lt_MAX pow hmono hone d hd hd0).1
      linarith
  · intro d hd1 hd0
    constructor
    · intro hkd
      refine ⟨?_, hkd ▸ hak⟩
      by_contra hcon
      have := hleast' (d - 1) (by omega) (by omega) (not_lt.1 hcon)
      rw [hkd] at this
      have h2 := (boundary_le_iff pow hmono d (d - 1) (by omega) hd0 (by omega)
        (by omega)).1 this
      omega
    · rintro ⟨hlo, hhi⟩
      have hkle := hleast' d (by omega) hd0 hhi
      rcases (mem_template_keys_of pow hmono hone k).1 hk with h | ⟨e, he1, he0, rfl⟩
      · rw [h] at hkle
        exact absurd (boundary_lt_MAX pow hmono hone d (by omega) hd0).2 (not_lt.2 hkle)
      · have hed : e ≤ d :=
          (boundary_le_iff pow hmono e d he1 he0 (by omega) hd0).1 hkle
        have hde : ¬ e ≤ d - 1 := by
          intro hcon
          have := (boundary_le_iff pow hmono e (d - 1) he1 he0 (by omega) (by omega)).2 hcon
          linarith
        have : e = d := by omega
        rw [this]
  · intro hkd
    exact hkd ▸ hak
  · intro ha
    have hkle := hleast' (-140) le_rfl (by norm_num) ha
    rcases (mem_template_keys_of pow hmono hone k).1 hk with h | ⟨e, he1, he0, rfl⟩
    · rw [h] at hkle
      exact absurd (boundary_lt_MAX pow hmono hone (-140) le_rfl (by norm_num)).2
        (not_lt.2 hkle)
    · have h2 : e ≤ -140 :=
        (boundary_le_iff pow hmono e (-140) he1 he0 le_rfl (by norm_num)).1 hkle
      have : e = -140 := by omega
      rw [this]

end BucketsAnyPow

/-! Section: The bucket table for a correctly rounded `pow`. -/

section RoundedPow

theorem round_double_one : round_double (1 : ℝ) = 1 := by
  unfold round_double
  rw [abs_one, Int.log_one_right]
  have h : (1 : ℝ) / (2 : ℝ) ^ ((0 : Int) - 52) = ((4503599627370496 : Int) : ℝ) := by
    rw [show ((0 : Int) - 52) = -52 by norm_num, zpow_neg]
    norm_num
  rw [h, round_intCast]
  rw [show ((0 : Int) - 52) = -52 by norm_num, zpow_neg]
  norm_num

theorem log_two_tenth : Int.log 2 |(1 / 10 : ℝ)| = -4 := by
  rw [abs_of_pos (by norm_num : (0 : ℝ) < 1 / 10)]
  apply le_antisymm
  · have h : Int.log 2 (1 / 10 : ℝ) < -3 := by
      rw [← Int.lt_zpow_iff_log_lt (by norm_num) (by norm_num)]
      rw [zpow_neg]
      norm_num
    omega
  · rw [← Int.zpow_le_iff_le_log (by norm_num) (by norm_num)]
    rw [zpow_neg]
    norm_num

/-- The double nearest to `1/10`. -/
theorem round_double_tenth :
    round_double (1 / 10 : ℝ) = 3602879701896397 / 36028797018963968 := by
  unfold round_double
  rw [log_two_tenth]
  have hq : (1 / 10 : ℝ) / (2 : ℝ) ^ ((-4 : Int) - 52) = 72057594037927936 / 10 := by
    rw [show ((-4 : Int) - 52) = -56 by norm_num, zpow_neg]
    norm_num
  have hr : round (72057594037927936 / 10 : ℝ) = 7205759403792794 := by
    rw [round_eq, Int.floor_eq_iff]
    constructor <;> norm_num
  rw [hq, hr, show ((-4 : Int) - 52) = -56 by norm_num, zpow_neg]
  norm_num

/-- Rounding to double changes a positive value by at most the fraction `2^-53` of it. -/
theorem round_double_near (x : ℝ) (hx : 0 < x) :
    |round_double x - x| ≤ x / 2 ^ 53 := by
  unfold round_double
  rw [abs_of_pos hx]
  have hu : (0 : ℝ) < (2 : ℝ) ^ (Int.log 2 x - 52) := zpow_pos (by norm_num) _
  have hlog : (2 : ℝ) ^ (Int.log 2 x) ≤ x := by
    have := Int.zpow_log_le_self (b := 2) (by norm_num) hx
    simpa using this
  have hsplit : (2 : ℝ) ^ (Int.log 2 x - 52) = (2 : ℝ) ^ (Int.log 2 x) / 2 ^ 52 := by
    rw [zpow_sub₀ (by norm_num)]
    norm_num
  have hround := abs_sub_round (x / (2 : ℝ) ^ (Int.log 2 x - 52))
  have heq : (round (x / (2 : ℝ) ^ (Int.log 2 x - 52)) : ℝ) * (2 : ℝ) ^ (Int.log 2 x - 52) - x
      = -((x / (2 : ℝ) ^ (Int.log 2 x - 52)
          - (round (x / (2 : ℝ) ^ (Int.log 2 x - 52)) : ℝ)) * (2 : ℝ) ^ (Int.log 2 x - 52)) := by
    field_simp
    ring
  rw [heq, abs_neg, abs_mul, abs_of_pos hu]
  calc |x / (2 : ℝ) ^ (Int.log 2 x - 52) - (round (x / (2 : ℝ) ^ (Int.log 2 x - 52)) : ℝ)|
        * (2 : ℝ) ^ (Int.log 2 x - 52)
      ≤ 1 / 2 * (2 : ℝ) ^ (Int.log 2 x - 52) := mul_le_mul_of_nonneg_right hround (le_of_lt hu)
    _ = (2 : ℝ) ^ (Int.log 2 x) / 2 ^ 53 := by rw [hsplit]; ring
    _ ≤ x / 2 ^ 53 := div_le_div_of_nonneg_right hlog (by positivity)

theorem eleven_tenths_le : (11 / 10 : ℝ) ≤ (10 : ℝ) ^ ((1 : ℝ) / 20) := by
  have h20 : (11 / 10 : ℝ) ^ 20 ≤ 10 := by norm_num
  have hroot : ((11 / 10 : ℝ) ^ 20) ^ (((20 : Nat) : ℝ)⁻¹) = 11 / 10 :=
    Real.pow_rpow_inv_natCast (by norm_num) (by norm_num)
  calc (11 / 10 : ℝ) = ((11 / 10 : ℝ) ^ 20) ^ (((20 : Nat) : ℝ)⁻¹) := hroot.symm
    _ ≤ (10 : ℝ) ^ (((20 : Nat) : ℝ)⁻¹) := Real.rpow_le_rpow (by positivity) h20 (by positivity)
    _ = (10 : ℝ) ^ ((1 : ℝ) / 20) := by norm_num

theorem fromdbfs_pow_double (d : ℝ) :
    fromdbfs pow_double d = round_double ((10 : ℝ) ^ (d / 20)) := rfl

/-- The rounded boundaries still increase strictly with the dBFS value: consecutive exact
boundaries differ by the factor `10^(1/20) > 1.1`, far more than the rounding. -/
theorem fromdbfs_pow_double_lt (d e : Int) (hde : d < e) :
    fromdbfs pow_double (d : ℝ) < fromdbfs pow_double (e : ℝ) := by
  rw [fromdbfs_pow_double, fromdbfs_pow_double]
  have hX : (0 : ℝ) < (10 : ℝ) ^ ((d : ℝ) / 20) := Real.rpow_pos_of_pos (by norm_num) _
  have hY : (0 : ℝ) < (10 : ℝ) ^ ((e : ℝ) / 20) := Real.rpow_pos_of_pos (by norm_num) _
  have hgap : (11 / 10 : ℝ) * (10 : ℝ) ^ ((d : ℝ) / 20) ≤ (10 : ℝ) ^ ((e : ℝ) / 20) := by
    have hexp : (d : ℝ) / 20 + 1 / 20 ≤ (e : ℝ) / 20 := by
      have : (d : ℝ) + 1 ≤ (e : ℝ) := by exact_mod_cast hde
      linarith
    calc (11 / 10 : ℝ) * (10 : ℝ) ^ ((d : ℝ) / 20)
        ≤ (10 : ℝ) ^ ((1 : ℝ) / 20) * (10 : ℝ) ^ ((d : ℝ) / 20) :=
          mul_le_mul_of_nonneg_right eleven_tenths_le (le_of_lt hX)
      _ = (10 : ℝ) ^ ((d : ℝ) / 20 + 1 / 20) := by
          rw [Real.rpow_add (by norm_num), mul_comm]
      _ ≤ (10 : ℝ) ^ ((e : ℝ) / 20) :=
          (Real.rpow_le_rpow_left_iff (by norm_num)).2 hexp
  have h1 := round_double_near _ hX
  have h2 := round_double_near _ hY
  rw [abs_le] at h1 h2
  have hε : (0 : ℝ) < 1 / 2 ^ 53 := by positivity
  have hε' : (1 : ℝ) / 2 ^ 53 ≤ 1 / 100 := by norm_num
  have e1 : (10 : ℝ) ^ ((d : ℝ) / 20) / 2 ^ 53 = (10 : ℝ) ^ ((d : ℝ) / 20) * (1 / 2 ^ 53) := by
    ring
  have e2 : (10 : ℝ) ^ ((e : ℝ) / 20) / 2 ^ 53 = (10 : ℝ) ^ ((e : ℝ) / 20) * (1 / 2 ^ 53) := by
    ring
  rw [e1] at h1
  rw [e2] at h2
  nlinarith [h1.2, h2.1, mul_pos hX hε, mul_pos hY hε]

theorem fromdbfs_pow_double_zero : fromdbfs pow_double 0 = 1 := by
  rw [fromdbfs_pow_double, zero_div, Real.rpow_zero, round_double_one]

/-- With the correctly rounded `pow` the boundary of `-20` dBFS is the double nearest to
`1/10`, which is greater than `1/10`. -/
theorem fromdbfs_pow_double_m20 :
    fromdbfs pow_double ((-20 : Int) : ℝ) = 3602879701896397 / 36028797018963968 := by
  rw [fromdbfs_pow_double]
  have h : (10 : ℝ) ^ ((((-20 : Int) : ℝ)) / 20) = 1 / 10 := by
    rw [show (((-20 : Int) : ℝ)) / 20 = -1 by norm_num, Real.rpow_neg_one]
    norm_num
  rw [h, round_double_tenth]

end RoundedPow

/-! Section: Passes over a channel. -/

section Passes

theorem template_sum_zero : ((hist_template Real.rpow).map Prod.snd).sum = 0 := by
  rw [hist_template_rpow]
  simp only [List.map_append, List.map_map, List.map_cons, List.map_nil, List.sum_append,
    List.sum_cons, List.sum_nil, add_zero]
  apply List.sum_eq_zero
  intro c hc
  obtain ⟨i, _, rfl⟩ := List.mem_map.1 hc
  rfl

/-- Classifying one finite value into a histogram with the template's keys succeeds, keeps
the keys and adds one to the total count. -/
theorem classify_total (hist : Hist ℝ) (a : ℝ)
    (hkeys : hist.map Prod.fst = (hist_template Real.rpow).map Prod.fst)
    (hfin : a ≤ MAX_SAMPLE ℝ) :
    ∃ h, increment hist (lower_bound hist a) = some h ∧
      h.map Prod.fst = (hist_template Real.rpow).map Prod.fst ∧
      (h.map Prod.snd).sum = (hist.map Prod.snd).sum + 1 := by
  obtain ⟨k, c, hget, _, _, _⟩ := lower_bound_template hist a hkeys hfin
  have hinc := increment_eq_set hist _ k c hget
  obtain ⟨h1, h2⟩ := increment_keys_sum hist _ _ hinc
  exact ⟨_, hinc, h1.trans hkeys, h2⟩

/-- The peak pass over finite samples runs to completion and adds one count per sample. -/
theorem peak_pass_total (content : List ℝ) (hfin : ∀ x ∈ content, |x| ≤ MAX_SAMPLE ℝ)
    (hist : Hist ℝ) (hkeys : hist.map Prod.fst = (hist_template Real.rpow).map Prod.fst) :
    ∃ h, peak_pass hist content = some h ∧
      h.map Prod.fst = (hist_template Real.rpow).map Prod.fst ∧
      (h.map Prod.snd).sum = (hist.map Prod.snd).sum + content.length := by
  induction content generalizing hist with
  | nil => exact ⟨hist, rfl, hkeys, by simp⟩
  | cons x xs ih =>
    obtain ⟨h1, hinc, hk1, hs1⟩ :=
      classify_total hist |x| hkeys (hfin x (List.mem_cons_self _ _))
    obtain ⟨h2, hp, hk2, hs2⟩ := ih (fun y hy => hfin y (List.mem_cons_of_mem _ hy)) h1 hk1
    refine ⟨h2, ?_, hk2, ?_⟩
    · simp only [peak_pass, List.foldlM_cons, hinc, Option.some_bind] at hp ⊢
      exact hp
    · rw [hs2, hs1, List.length_cons]; omega

end Passes

/-! Section: The RMS windower. -/

section Windower

variable {α : Type} [LinearOrderedField α]

/-- The summation loop started inside the signal with `n` iterations to run reads the `n`
samples from `i` on and adds their squares. -/
theorem sum_squares_eq (signal : List α) (n i : Nat) (r : α) (h : i + n ≤ signal.length) :
    sum_squares signal n (i : Int) r
      = some (r + ∑ j in Finset.range n, signal.getD (i + j) 0 ^ 2) := by
  induction n generalizing i r with
  | zero => simp [sum_squares]
  | succ n ih =>
    have hi : i < signal.length := by omega
    have hstep := ih (i + 1) (r + signal[i] * signal[i]) (by omega)
    simp only [sum_squares, Int.natCast_nonneg, if_true, Int.toNat_ofNat,
      List.getElem?_eq_getElem hi]
    have hcast : ((i : Int) + 1) = ((i + 1 : Nat) : Int) := by push_cast; rfl
    rw [hcast, hstep, Finset.sum_range_succ']
    congr 1
    have h0 : signal.getD (i + 0) 0 = signal[i] := by
      simp [List.getD_eq_getElem?_getD, List.getElem?_eq_getElem hi]
    rw [h0, add_assoc, add_comm (signal[i] * signal[i]), pow_two]
    congr 2
    apply Finset.sum_congr rfl
    intro j _
    congr 2; omega

/-- Closed form of `get_window_rms` at an offset inside the signal: the window has
`min win_size (size - start)` samples. -/
theorem get_window_rms_eq (sqrt : α → α) (signal : List α) (i W : Nat)
    (hi : i < signal.length) :
    get_window_rms sqrt signal (i : Int) (W : Int)
      = some (sqrt ((∑ j in Finset.range (min W (signal.length - i)),
            signal.getD (i + j) 0 ^ 2) / ((min W (signal.length - i) : Nat) : α))) := by
  have hlt : (i : Int) < (signal.length : Int) := by exact_mod_cast hi
  have hwin : (if (W : Int) > (signal.length : Int) - (i : Int)
      then (signal.length : Int) - (i : Int) else (W : Int))
        = ((min W (signal.length - i) : Nat) : Int) := by
    split_ifs with hc <;> omega
  simp only [get_window_rms, hlt, if_true, hwin, add_sub_cancel_left, Int.toNat_ofNat]
  rw [sum_squares_eq signal _ i 0 (by omega)]
  simp

end Windower

section WindowerReal

/-- Over the reals the RMS of a window of finite samples is a finite non-negative value. -/
theorem rms_le_MAX (signal : List ℝ) (hfin : ∀ x ∈ signal, |x| ≤ MAX_SAMPLE ℝ) (i n : Nat) :
    Real.sqrt ((∑ j in Finset.range n, signal.getD (i + j) 0 ^ 2) / (n : ℝ)) ≤ MAX_SAMPLE ℝ := by
  have hM : (0 : ℝ) ≤ MAX_SAMPLE ℝ := le_trans zero_le_one (le_of_lt one_lt_MAX_SAMPLE)
  rw [Real.sqrt_le_left hM]
  have hterm : ∀ j, signal.getD (i + j) 0 ^ 2 ≤ MAX_SAMPLE ℝ ^ 2 := by
    intro j
    have habs : |signal.getD (i + j) 0| ≤ MAX_SAMPLE ℝ := by
      by_cases hj : i + j < signal.length
      · have : signal.getD (i + j) 0 = signal[i + j] := by
          simp [List.getD_eq_getElem?_getD, List.getElem?_eq_getElem hj]
        rw [this]
        exact hfin _ (List.getElem_mem hj)
      · have : signal.getD (i + j) 0 = 0 := by
          simp [List.getD_eq_getElem?_getD, List.getElem?_eq_none (not_lt.1 hj)]
        rw [this, abs_zero]; exact hM
    rw [← sq_abs]
    exact pow_le_pow_left₀ (abs_nonneg _) habs 2
  have hsum : (∑ j in Finset.range n, signal.getD (i + j) 0 ^ 2) ≤ n * MAX_SAMPLE ℝ ^ 2 := by
    calc (∑ j in Finset.range n, signal.getD (i + j) 0 ^ 2)
        ≤ ∑ _j in Finset.range n, MAX_SAMPLE ℝ ^ 2 := Finset.sum_le_sum (fun j _ => hterm j)
      _ = n * MAX_SAMPLE ℝ ^ 2 := by simp
  rcases Nat.eq_zero_or_pos n with h0 | h0
  · subst h0; simp; positivity
  · have hn : (0 : ℝ) < n := by exact_mod_cast h0
    rw [div_le_iff₀ hn]
    linarith

theorem two_pow_le_MAX_SAMPLE : (2 : ℝ) ^ 1023 ≤ MAX_SAMPLE ℝ := by
  unfold MAX_SAMPLE; norm_num

/-- Samples of magnitude at most `B` are finite when a window of `W ≥ 1` frames of them
cannot overflow. -/
theorem abs_le_MAX_of_bound (B : ℝ) (W : Nat) (hW : 1 ≤ W) (hBW : (W : ℝ) * B ^ 2 ≤ 2 ^ 1023)
    (x : ℝ) (hx : |x| ≤ B) : |x| ≤ MAX_SAMPLE ℝ := by
  have hW1 : (1 : ℝ) ≤ W := by exact_mod_cast hW
  have hB0 : 0 ≤ B := le_trans (abs_nonneg x) hx
  have hB2 : B ^ 2 ≤ (2 : ℝ) ^ 1023 := by nlinarith [sq_nonneg B]
  have hsq : |x| ^ 2 ≤ ((2 : ℝ) ^ 512) ^ 2 := by
    have h1 : |x| ^ 2 ≤ B ^ 2 := pow_le_pow_left₀ (abs_nonneg x) hx 2
    have h2 : (2 : ℝ) ^ 1023 ≤ ((2 : ℝ) ^ 512) ^ 2 := by norm_num
    linarith
  have h512 : |x| ≤ (2 : ℝ) ^ 512 := by
    exact (abs_le_of_sq_le_sq' hsq (by positivity)).2
  have : (2 : ℝ) ^ 512 ≤ MAX_SAMPLE ℝ := by unfold MAX_SAMPLE; norm_num
  linarith

/-- The sum of squares of a window of at most `W` samples of magnitude at most `B`. -/
theorem window_sum_le (signal : List ℝ) (B : ℝ) (hB : ∀ x ∈ signal, |x| ≤ B) (W i n : Nat)
    (hn : n ≤ W) (hne : signal ≠ []) :
    (∑ j in Finset.range n, signal.getD (i + j) 0 ^ 2) ≤ (W : ℝ) * B ^ 2 := by
  obtain ⟨x0, hx0⟩ := List.exists_mem_of_ne_nil signal hne
  have hB0 : 0 ≤ B := le_trans (abs_nonneg x0) (hB x0 hx0)
  have hterm : ∀ j, signal.getD (i + j) 0 ^ 2 ≤ B ^ 2 := by
    intro j
    have habs : |signal.getD (i + j) 0| ≤ B := by
      by_cases hj : i + j < signal.length
      · have : signal.getD (i + j) 0 = signal[i + j] := by
          simp [List.getD_eq_getElem?_getD, List.getElem?_eq_getElem hj]
        rw [this]
        exact hB _ (List.getElem_mem hj)
      · have : signal.getD (i + j) 0 = 0 := by
          simp [List.getD_eq_getElem?_getD, List.getElem?_eq_none (not_lt.1 hj)]
        rw [this, abs_zero]; exact hB0
    rw [← sq_abs]
    exact pow_le_pow_left₀ (abs_nonneg _) habs 2
  calc (∑ j in Finset.range n, signal.getD (i + j) 0 ^ 2)
      ≤ ∑ _j in Finset.range n, B ^ 2 := Finset.sum_le_sum (fun j _ => hterm j)
    _ = n * B ^ 2 := by simp
    _ ≤ (W : ℝ) * B ^ 2 := by
        apply mul_le_mul_of_nonneg_right _ (sq_nonneg B)
        exact_mod_cast hn

end WindowerReal

/-! Section: The RMS value as a double. -/

section WindowerIeee

variable {α : Type} [LinearOrderedField α]

theorem MAX_SAMPLE_nonneg : (0 : α) ≤ MAX_SAMPLE α := by
  unfold MAX_SAMPLE
  have h : (2 : α) ^ 971 ≤ 2 ^ 1024 := pow_le_pow_right₀ (by norm_num) (by norm_num)
  linarith

/-- Closed form of `get_window_rms_ieee` at an offset inside the signal: `+inf` when the sum
of squares of the window exceeds `MAX_SAMPLE`, NaN when the window is empty, and the value of
`get_window_rms` otherwise. -/
theorem get_window_rms_ieee_eq (sqrt : α → α) (signal : List α) (i W : Nat)
    (hi : i < signal.length) :
    get_window_rms_ieee sqrt signal (i : Int) (W : Int)
      = some (if MAX_SAMPLE α < ∑ j in Finset.range (min W (signal.length - i)),
            signal.getD (i + j) 0 ^ 2 then DoubleVal.inf
          else if min W (signal.length - i) = 0 then DoubleVal.nan
          else DoubleVal.finite (sqrt ((∑ j in Finset.range (min W (signal.length - i)),
            signal.getD (i + j) 0 ^ 2) / ((min W (signal.length - i) : Nat) : α)))) := by
  have hlt : (i : Int) < (signal.length : Int) := by exact_mod_cast hi
  have hwin : (if (W : Int) > (signal.length : Int) - (i : Int)
      then (signal.length : Int) - (i : Int) else (W : Int))
        = ((min W (signal.length - i) : Nat) : Int) := by
    split_ifs with hc <;> omega
  simp only [get_window_rms_ieee, hlt, if_true, hwin, add_sub_cancel_left, Int.toNat_ofNat]
  rw [sum_squares_eq signal _ i 0 (by omega)]
  simp only [zero_add, Int.cast_natCast, Nat.cast_eq_zero]
  split_ifs <;> rfl

/-- When `get_window_rms_ieee` returns a finite value, it is the value of `get_window_rms`. -/
theorem get_window_rms_of_ieee_finite (sqrt : α → α) (signal : List α) (i W : Nat)
    (hi : i < signal.length) (v : α)
    (h : get_window_rms_ieee sqrt signal (i : Int) (W : Int) = some (DoubleVal.finite v)) :
    get_window_rms sqrt signal (i : Int) (W : Int) = some v := by
  rw [get_window_rms_ieee_eq sqrt signal i W hi] at h
  rw [get_window_rms_eq sqrt signal i W hi]
  simp only [Option.some.injEq] at h ⊢
  split_ifs at h with h1 h2
  exact DoubleVal.finite.inj h

omit [LinearOrderedField α] in
/-- On a count below `INT_MAX` the statement `it->second++` does not overflow. -/
theorem increment_int_eq_set (m : Hist α) (i : Nat) (k : α) (c : Nat)
    (h : m[i]? = some (k, c)) (hc : c < INT_MAX) :
    increment_int m i = some (m.set i (k, c + 1)) := by
  induction m generalizing i with
  | nil => simp at h
  | cons q rest ih =>
    cases i with
    | zero =>
      simp only [List.getElem?_cons_zero, Option.some.injEq] at h
      subst h; simp [increment_int, hc]
    | succ i =>
      simp only [List.getElem?_cons_succ] at h
      simp [increment_int, ih i h]

omit [LinearOrderedField α] in
/-- At `end()` the statement `it->second++` is undefined. -/
theorem increment_int_end (m : Hist α) : increment_int m m.length = none := by
  induction m with
  | nil => rfl
  | cons q rest ih => simp [increment_int, ih]

end WindowerIeee

/-! Section: The RMS loop. -/

section RmsLoop

/-- Extra fuel does not change the result of an RMS loop that has finished. -/
theorem rms_loop_mono {α : Type} [LinearOrderedField α] (sqrt : α → α) (content : List α)
    (W : Nat) (fuel : Nat) (i : Nat) (hist h : Hist α)
    (hdone : rms_loop sqrt content W fuel i hist = Run.done h) (fuel' : Nat)
    (hle : fuel ≤ fuel') : rms_loop sqrt content W fuel' i hist = Run.done h := by
  induction fuel generalizing i hist fuel' with
  | zero => simp [rms_loop] at hdone
  | succ fuel ih =>
    obtain ⟨f, rfl⟩ : ∃ f, fuel' = f + 1 := ⟨fuel' - 1, by omega⟩
    simp only [rms_loop] at hdone ⊢
    by_cases hi : i < content.length
    · simp only [hi, if_true] at hdone ⊢
      cases hb : rms_body sqrt content W i hist with
      | none => simp [hb] at hdone
      | some r =>
        obtain ⟨i', h'⟩ := r
        simp only [hb] at hdone ⊢
        exact ih i' h' hdone f (by omega)
    · simp only [hi, if_false] at hdone ⊢
      exact hdone

/-- The loop update is `i += win_50ms`: a completed iteration leaves the offset at
`i + win_50ms`, whatever the length of the window that was read. -/
theorem rms_body_offset {α : Type} [LinearOrderedField α] (sqrt : α → α) (content : List α)
    (W i : Nat) (hist : Hist α) (i' : Nat) (h' : Hist α)
    (hb : rms_body sqrt content W i hist = some (i', h')) : i' = i + W := by
  unfold rms_body at hb
  cases hg : get_window_rms_ieee sqrt content (i : Int) (W : Int) with
  | none => simp [hg] at hb
  | some rms =>
    simp only [hg, Option.map_eq_some', Prod.mk.injEq] at hb
    obtain ⟨_, _, hi, _⟩ := hb
    exact hi.symm

/-- With a window of at least one frame the RMS loop has stopped, in a result or in
undefined behaviour, once the bound on the condition checks exceeds `size - i`. -/
theorem rms_loop_halts {α : Type} [LinearOrderedField α] (sqrt : α → α) (content : List α)
    (W : Nat) (hW : 1 ≤ W) (fuel i : Nat) (hist : Hist α) (hfuel : content.length - i < fuel) :
    rms_loop sqrt content W fuel i hist ≠ Run.running := by
  induction fuel generalizing i hist with
  | zero => omega
  | succ fuel ih =>
    by_cases hi : i < content.length
    · simp only [rms_loop, hi, if_true]
      cases hb : rms_body sqrt content W i hist with
      | none => simp
      | some r =>
        obtain ⟨i', h'⟩ := r
        have hi' := rms_body_offset sqrt content W i hist i' h' hb
        exact ih i' h' (by omega)
    · simp [rms_loop, hi]

/-- One iteration of the RMS loop at an offset inside a signal whose windows cannot overflow,
on a histogram whose counts sum to less than `INT_MAX`: the window value is finite, it is
classified, and the offset advances by the window size. -/
theorem rms_body_total (content : List ℝ) (B : ℝ) (hB : ∀ x ∈ content, |x| ≤ B)
    (W : Nat) (hW : 1 ≤ W) (hBW : (W : ℝ) * B ^ 2 ≤ 2 ^ 1023)
    (i : Nat) (hi : i < content.length) (hist : Hist ℝ)
    (hkeys : hist.map Prod.fst = (hist_template Real.rpow).map Prod.fst)
    (hcount : (hist.map Prod.snd).sum < INT_MAX) :
    ∃ h, rms_body Real.sqrt content W i hist = some (i + W, h) ∧
      h.map Prod.fst = (hist_template Real.rpow).map Prod.fst ∧
      (h.map Prod.snd).sum = (hist.map Prod.snd).sum + 1 := by
  have hne : content ≠ [] := List.ne_nil_of_length_pos (by omega)
  have hn1 : 1 ≤ min W (content.length - i) := by omega
  have hS := window_sum_le content B hB W i (min W (content.length - i)) (min_le_left _ _) hne
  have hS' : ¬ MAX_SAMPLE ℝ < ∑ j in Finset.range (min W (content.length - i)),
      content.getD (i + j) 0 ^ 2 :=
    not_lt.2 (le_trans hS (le_trans hBW two_pow_le_MAX_SAMPLE))
  have hfin : ∀ x ∈ content, |x| ≤ MAX_SAMPLE ℝ :=
    fun x hx => abs_le_MAX_of_bound B W hW hBW x (hB x hx)
  have hrms : get_window_rms_ieee Real.sqrt content (i : Int) (W : Int)
      = some (DoubleVal.finite (Real.sqrt ((∑ j in Finset.range (min W (content.length - i)),
          content.getD (i + j) 0 ^ 2) / ((min W (content.length - i) : Nat) : ℝ)))) := by
    rw [get_window_rms_ieee_eq Real.sqrt content i W hi, if_neg hS', if_neg (by omega)]
  obtain ⟨k, c, hget, _, _, _⟩ := lower_bound_template hist _ hkeys
    (rms_le_MAX content hfin i (min W (content.length - i)))
  have hc : c < INT_MAX := by
    have : c ≤ (hist.map Prod.snd).sum :=
      List.single_le_sum (fun _ _ => Nat.zero_le _) _
        (List.mem_map_of_mem Prod.snd (List.getElem?_mem hget))
    omega
  have hinc := increment_int_eq_set hist _ k c hget hc
  obtain ⟨h1, h2⟩ := increment_keys_sum hist _ _ (increment_eq_set hist _ k c hget)
  refine ⟨_, ?_, h1.trans hkeys, h2⟩
  simp only [rms_body, hrms, lower_bound_ieee, hinc, Option.map_some']

theorem ceil_step (L i W : Nat) (hi : i < L) (hW : 1 ≤ W) :
    (L - i + W - 1) / W = (L - (i + W) + W - 1) / W + 1 := by
  rcases Nat.lt_or_ge (L - i) (W + 1) with h | h
  · have h1 : L - (i + W) = 0 := by omega
    have h2 : (L - i + W - 1) / W = 1 := by
      apply Nat.div_eq_of_lt_le
      · rw [Nat.one_mul]; omega
      · rw [Nat.add_mul, Nat.one_mul]; omega
    rw [h1, h2, Nat.zero_add, Nat.div_eq_of_lt (by omega)]
  · have h1 : L - i + W - 1 = (L - (i + W) + W - 1) + W := by omega
    rw [h1, Nat.add_div_right _ (by omega)]

/-- With a window of at least one frame, the RMS loop over a signal whose windows cannot
overflow finishes within `size - i + 1` evaluations of its condition and classifies one value
per window, provided the counts stay within `INT_MAX`. -/
theorem rms_loop_total (content : List ℝ) (B : ℝ) (hB : ∀ x ∈ content, |x| ≤ B)
    (W : Nat) (hW : 1 ≤ W) (hBW : (W : ℝ) * B ^ 2 ≤ 2 ^ 1023) (fuel i : Nat) (hist : Hist ℝ)
    (hkeys : hist.map Prod.fst = (hist_template Real.rpow).map Prod.fst)
    (hcount : (hist.map Prod.snd).sum + (content.length - i + W - 1) / W ≤ INT_MAX)
    (hfuel : content.length - i < fuel) :
    ∃ h, rms_loop Real.sqrt content W fuel i hist = Run.done h ∧
      h.map Prod.fst = (hist_template Real.rpow).map Prod.fst ∧
      (h.map Prod.snd).sum = (hist.map Prod.snd).sum + (content.length - i + W - 1) / W := by
  induction fuel generalizing i hist with
  | zero => omega
  | succ fuel ih =>
    by_cases hi : i < content.length
    · have hstep := ceil_step content.length i W hi hW
      rw [hstep] at hcount
      have hc1 : (hist.map Prod.snd).sum < INT_MAX :=
        lt_of_lt_of_le (Nat.lt_add_of_pos_right (Nat.succ_pos _)) hcount
      obtain ⟨h1, hb, hk1, hs1⟩ :=
        rms_body_total content B hB W hW hBW i hi hist hkeys hc1
      have hc2 : (h1.map Prod.snd).sum + (content.length - (i + W) + W - 1) / W ≤ INT_MAX := by
        rw [hs1, Nat.add_assoc, Nat.add_comm 1]
        exact hcount
      obtain ⟨h2, hr, hk2, hs2⟩ := ih (i + W) h1 hk1 hc2 (by omega)
      refine ⟨h2, ?_, hk2, ?_⟩
      · simp only [rms_loop, hi, if_true, hb]
        exact hr
      · rw [hs2, hs1, hstep]; ring
    · refine ⟨hist, by simp [rms_loop, hi], hkeys, ?_⟩
      have h0 : content.length - i = 0 := by omega
      rw [h0, Nat.zero_add, Nat.div_eq_of_lt (by omega)]
      rfl

/-- The integer quotient `(L + W - 1) / W` is the ceiling of `L / W`. -/
theorem ceil_div_eq (L W : Nat) (hW : 1 ≤ W) : ⌈(L : ℝ) / (W : ℝ)⌉₊ = (L + W - 1) / W := by
  have hWpos : (0 : ℝ) < W := by exact_mod_cast hW
  rcases Nat.eq_zero_or_pos L with h0 | h0
  · subst h0
    simp only [Nat.cast_zero, zero_div, Nat.ceil_zero, Nat.zero_add]
    exact (Nat.div_eq_of_lt (by omega)).symm
  · have hq : 1 ≤ (L + W - 1) / W := by
      rw [Nat.le_div_iff_mul_le (by omega)]; omega
    rw [Nat.ceil_eq_iff (by omega)]
    have hmod := Nat.div_add_mod (L + W - 1) W
    have hlt := Nat.mod_lt (L + W - 1) (by omega : W > 0)
    constructor
    · rw [lt_div_iff₀ hWpos]
      have : ((L + W - 1) / W - 1) * W < L := by
        have : ((L + W - 1) / W - 1) * W = W * ((L + W - 1) / W) - W := by
          rw [Nat.sub_mul, Nat.mul_comm]; simp
        omega
      exact_mod_cast this
    · rw [div_le_iff₀ hWpos]
      have : L ≤ (L + W - 1) / W * W := by
        have : (L + W - 1) / W * W = W * ((L + W - 1) / W) := Nat.mul_comm _ _
        omega
      exact_mod_cast this

theorem ceil_div_le (L W : Nat) (hW : 1 ≤ W) : (L + W - 1) / W ≤ L := by
  rcases Nat.eq_zero_or_pos L with h0 | h0
  · subst h0; rw [Nat.zero_add, Nat.div_eq_of_lt (by omega)]
  · obtain ⟨l, rfl⟩ : ∃ l, L = l + 1 := ⟨L - 1, by omega⟩
    obtain ⟨w, rfl⟩ : ∃ w, W = w + 1 := ⟨W - 1, by omega⟩
    apply Nat.div_le_of_le_mul
    have h : (w + 1) * (l + 1) = w * l + w + l + 1 := by ring
    rw [h]
    have := Nat.zero_le (w * l)
    omega

end RmsLoop

section RmsLoopZero

variable {α : Type} [LinearOrderedField α]

/-- With a window size of `0` the window value at an offset inside the signal is NaN. -/
theorem get_window_rms_ieee_zero (sqrt : α → α) (content : List α) (i : Nat)
    (hi : i < content.length) :
    get_window_rms_ieee sqrt content (i : Int) ((0 : Nat) : Int) = some DoubleVal.nan := by
  rw [get_window_rms_ieee_eq sqrt content i 0 hi]
  simp [not_lt.2 (MAX_SAMPLE_nonneg : (0 : α) ≤ MAX_SAMPLE α)]

/-- With a window size of `0` an iteration at an offset inside the signal increments the
count of the first entry and leaves the offset where it was; it is undefined when that count
is `INT_MAX`. -/
theorem rms_body_zero (sqrt : α → α) (content : List α) (i : Nat) (hi : i < content.length)
    (k : α) (c : Nat) (rest : Hist α) :
    rms_body sqrt content 0 i ((k, c) :: rest)
      = if c < INT_MAX then some (i, (k, c + 1) :: rest) else none := by
  simp only [rms_body, get_window_rms_ieee_zero sqrt content i hi, lower_bound_ieee,
    increment_int, Nat.add_zero]
  split_ifs <;> rfl

/-- With a window size of `0` the RMS loop at an offset inside the signal keeps running as
long as the count of the first entry can be incremented, and is undefined afterwards. -/
theorem rms_loop_zero (sqrt : α → α) (content : List α) (i : Nat) (hi : i < content.length)
    (fuel : Nat) (k : α) (c : Nat) (rest : Hist α) (hc : c ≤ INT_MAX) :
    rms_loop sqrt content 0 fuel i ((k, c) :: rest)
      = if fuel + c ≤ INT_MAX then Run.running else Run.undefined := by
  induction fuel generalizing c with
  | zero => simp [rms_loop, hc]
  | succ fuel ih =>
    simp only [rms_loop, hi, if_true, rms_body_zero sqrt content i hi]
    by_cases hlt : c < INT_MAX
    · simp only [hlt, if_true]
      rw [ih (c + 1) (by omega)]
      by_cases h : fuel + (c + 1) ≤ INT_MAX
      · rw [if_pos h, if_pos (by omega)]
      · rw [if_neg h, if_neg (by omega)]
    · simp only [hlt, if_false]
      rw [if_neg (by omega)]

end RmsLoopZero

/-! Section: The maximum count. -/

section MaxCount

variable {α : Type} [LinearOrderedField α]

/-- The scan of `std::max_element` from a current largest count `b`: the result is `b` or a
scanned count, and bounds both. -/
theorem max_scan (rest : Hist α) (b : Nat) :
    (rest.foldl (fun largest q => if largest < q.2 then q.2 else largest) b = b ∨
      ∃ q ∈ rest, q.2 = rest.foldl (fun largest q => if largest < q.2 then q.2 else largest) b) ∧
    b ≤ rest.foldl (fun largest q => if largest < q.2 then q.2 else largest) b ∧
    ∀ q ∈ rest, q.2 ≤ rest.foldl (fun largest q => if largest < q.2 then q.2 else largest) b := by
  induction rest generalizing b with
  | nil => simp
  | cons p rest ih =>
    simp only [List.foldl_cons]
    obtain ⟨h1, h2, h3⟩ := ih (if b < p.2 then p.2 else b)
    refine ⟨?_, ?_, ?_⟩
    · rcases h1 with h1 | ⟨q, hq, hq2⟩
      · by_cases hb : b < p.2
        · right
          refine ⟨p, List.mem_cons_self _ _, ?_⟩
          rw [h1, if_pos hb]
        · left
          rw [h1, if_neg hb]
      · exact Or.inr ⟨q, List.mem_cons_of_mem _ hq, hq2⟩
    · refine le_trans ?_ h2
      split_ifs with hb
      · exact le_of_lt hb
      · exact le_rfl
    · intro q hq
      rcases List.mem_cons.1 hq with rfl | hq'
      · refine le_trans ?_ h2
        split_ifs with hb
        · exact le_rfl
        · exact not_lt.1 hb
      · exact h3 q hq'

/-- On a non-empty map the assertion of `find_max_value` holds, and the value returned is
the count of some entry and bounds the count of every entry. -/
theorem find_max_value_spec (m : Hist α) (hne : m ≠ []) :
    ∃ mx, find_max_value m = some mx ∧ (∃ q ∈ m, q.2 = mx) ∧ ∀ q ∈ m, q.2 ≤ mx := by
  cases m with
  | nil => exact absurd rfl hne
  | cons p rest =>
    obtain ⟨h1, h2, h3⟩ := max_scan rest p.2
    refine ⟨_, rfl, ?_, ?_⟩
    · rcases h1 with h1 | ⟨q, hq, hq2⟩
      · exact ⟨p, List.mem_cons_self _ _, h1.symm⟩
      · exact ⟨q, List.mem_cons_of_mem _ hq, hq2⟩
    · intro q hq
      rcases List.mem_cons.1 hq with rfl | hq'
      · exact h2
      · exact h3 q hq'

omit [LinearOrderedField α] in
/-- The maximum count is `0` exactly when the counts sum to `0`. -/
theorem max_zero_iff_sum_zero (m : Hist α) (mx : Nat) (hatt : ∃ q ∈ m, q.2 = mx)
    (hbound : ∀ q ∈ m, q.2 ≤ mx) : mx = 0 ↔ (m.map Prod.snd).sum = 0 := by
  constructor
  · intro h0
    apply List.sum_eq_zero
    intro c hc
    obtain ⟨q, hq, rfl⟩ := List.mem_map.1 hc
    have := hbound q hq
    omega
  · intro hs
    obtain ⟨q, hq, rfl⟩ := hatt
    have hle : q.2 ≤ (m.map Prod.snd).sum :=
      List.single_le_sum (fun _ _ => Nat.zero_le _) _ (List.mem_map_of_mem _ hq)
    omega

/-- In a map with ascending keys, `m[k]` reads the count stored with the key `k`. -/
theorem lookup_of_mem (m : Hist α) (hs : (m.map Prod.fst).Pairwise (· < ·)) (k : α) (c : Nat)
    (h : (k, c) ∈ m) : Hist.lookup m k = c := by
  induction m with
  | nil => simp at h
  | cons p rest ih =>
    obtain ⟨k', c'⟩ := p
    simp only [List.map_cons, List.pairwise_cons] at hs
    rcases List.mem_cons.1 h with heq | hmem
    · simp only [Prod.mk.injEq] at heq
      obtain ⟨rfl, rfl⟩ := heq
      simp [Hist.lookup]
    · have hlt : k' < k := hs.1 k (List.mem_map_of_mem Prod.fst hmem)
      simp only [Hist.lookup, not_lt.2 (le_of_lt hlt), if_false, hlt, if_true]
      exact ih hs.2 hmem

end MaxCount

/-! Section: One channel. -/

section Channel

theorem template_counts_zero (q : ℝ × Nat) (hq : q ∈ hist_template Real.rpow) : q.2 = 0 := by
  rw [hist_template_rpow] at hq
  rcases List.mem_append.1 hq with h | h
  · obtain ⟨i, _, rfl⟩ := List.mem_map.1 h
    rfl
  · simp only [List.mem_singleton] at h
    subst h; rfl

theorem ne_nil_of_template_keys (hist : Hist ℝ)
    (hkeys : hist.map Prod.fst = (hist_template Real.rpow).map Prod.fst) : hist ≠ [] := by
  intro h
  have := congrArg List.length hkeys
  rw [h] at this
  simp [hist_template_length] at this

/-- The work on one channel runs to completion when the window has at least one frame, no
window can overflow and the channel has at most `INT_MAX` samples.  The two histograms are
the results of the peak pass and of the RMS loop, the two maxima are the results of
`find_max_value` on them; both histograms keep the template's keys, their counts sum to the
number of samples and to the number of windows, and each maximum is the count of an entry and
bounds every count. -/
theorem process_channel_total (content : List ℝ) (B : ℝ) (hB : ∀ x ∈ content, |x| ≤ B)
    (W : Nat) (hW : 1 ≤ W) (hBW : (W : ℝ) * B ^ 2 ≤ 2 ^ 1023)
    (hlen : content.length ≤ INT_MAX) :
    ∃ cd : ChannelData ℝ,
      (∀ fuel, content.length < fuel →
        process_channel Real.sqrt (hist_template Real.rpow) content W fuel = Run.done cd) ∧
      peak_pass (hist_template Real.rpow) content = some cd.hist_pk ∧
      (∀ fuel, content.length < fuel →
        rms_loop Real.sqrt content W fuel 0 (hist_template Real.rpow) = Run.done cd.hist_rms) ∧
      find_max_value cd.hist_pk = some cd.max_num_of_pk ∧
      find_max_value cd.hist_rms = some cd.max_num_of_rms ∧
      cd.hist_pk.map Prod.fst = (hist_template Real.rpow).map Prod.fst ∧
      cd.hist_rms.map Prod.fst = (hist_template Real.rpow).map Prod.fst ∧
      (cd.hist_pk.map Prod.snd).sum = content.length ∧
      (cd.hist_rms.map Prod.snd).sum = (content.length + W - 1) / W ∧
      ((∃ q ∈ cd.hist_pk, q.2 = cd.max_num_of_pk) ∧ ∀ q ∈ cd.hist_pk, q.2 ≤ cd.max_num_of_pk) ∧
      ((∃ q ∈ cd.hist_rms, q.2 = cd.max_num_of_rms) ∧
        ∀ q ∈ cd.hist_rms, q.2 ≤ cd.max_num_of_rms) := by
  have hfin : ∀ x ∈ content, |x| ≤ MAX_SAMPLE ℝ :=
    fun x hx => abs_le_MAX_of_bound B W hW hBW x (hB x hx)
  obtain ⟨hpk, hp, hkp, hsp⟩ := peak_pass_total content hfin (hist_template Real.rpow) rfl
  have hcount : ((hist_template Real.rpow).map Prod.snd).sum
      + (content.length - 0 + W - 1) / W ≤ INT_MAX := by
    rw [template_sum_zero, Nat.zero_add, Nat.sub_zero]
    exact le_trans (ceil_div_le _ _ hW) hlen
  obtain ⟨hrms, hr, hkr, hsr⟩ := rms_loop_total content B hB W hW hBW (content.length + 1) 0
    (hist_template Real.rpow) rfl hcount (by omega)
  obtain ⟨mpk, hmpk, hpk1, hpk2⟩ := find_max_value_spec hpk (ne_nil_of_template_keys hpk hkp)
  obtain ⟨mrms, hmrms, hrms1, hrms2⟩ :=
    find_max_value_spec hrms (ne_nil_of_template_keys hrms hkr)
  have hr' : ∀ fuel, content.length < fuel →
      rms_loop Real.sqrt content W fuel 0 (hist_template Real.rpow) = Run.done hrms :=
    fun fuel hfuel => rms_loop_mono Real.sqrt content W _ 0 _ hrms hr fuel (by omega)
  refine ⟨⟨hpk, hrms, mpk, mrms⟩, ?_, hp, hr', hmpk, hmrms, hkp, hkr, ?_, ?_,
    ⟨hpk1, hpk2⟩, ⟨hrms1, hrms2⟩⟩
  · intro fuel hfuel
    simp only [process_channel, hp, hr' fuel hfuel, hmpk, hmrms]
  · simp only [hsp, template_sum_zero, Nat.zero_add]
  · simp only [hsr, template_sum_zero, Nat.zero_add, Nat.sub_zero]

/-- The window `[2^600]`: the square `2^1200` is beyond the finite range, so the value is
`+inf`, `lower_bound` is `end()` and the iteration is undefined. -/
theorem rms_body_overflow (hist : Hist ℝ) :
    get_window_rms_ieee Real.sqrt [(2 : ℝ) ^ 600] 0 1 = some DoubleVal.inf ∧
    rms_body Real.sqrt [(2 : ℝ) ^ 600] 1 0 hist = none := by
  have hv : get_window_rms_ieee Real.sqrt [(2 : ℝ) ^ 600] ((0 : Nat) : Int) ((1 : Nat) : Int)
      = some DoubleVal.inf := by
    rw [get_window_rms_ieee_eq Real.sqrt [(2 : ℝ) ^ 600] 0 1 (by simp)]
    have hS : MAX_SAMPLE ℝ < ∑ j in Finset.range (min 1 ([(2 : ℝ) ^ 600].length - 0)),
        [(2 : ℝ) ^ 600].getD (0 + j) 0 ^ 2 := by
      simp only [List.length_cons, List.length_nil, Nat.zero_add, Nat.sub_zero, min_self,
        Finset.sum_range_one, List.getD_eq_getElem?_getD, List.getElem?_cons_zero,
        Option.getD_some]
      unfold MAX_SAMPLE
      norm_num
    rw [if_pos hS]
  refine ⟨hv, ?_⟩
  simp only [rms_body, hv, lower_bound_ieee, increment_int_end, Option.map_none']

theorem template_cons :
    ∃ (k : ℝ) (rest : Hist ℝ), hist_template Real.rpow = (k, 0) :: rest := by
  rw [hist_template_rpow, List.range_succ_eq_map]
  exact ⟨_, _, rfl⟩

end Channel

/-! Section: Normalisation. -/

section Normalisation

/-- Scaling by a positive maximum count that is attained and bounds every count: the bucket
holding the maximum reads `100`, and every bucket reads a value between `0` and `100`. -/
theorem scaled_range (hist : Hist ℝ) (mx : Nat)
    (hkeys : hist.map Prod.fst = (hist_template Real.rpow).map Prod.fst) (hpos : 0 < mx)
    (hatt : ∃ q ∈ hist, q.2 = mx) (hbound : ∀ q ∈ hist, q.2 ≤ mx) :
    (∃ b ∈ (hist_template Real.rpow).map Prod.fst, (scaled (Hist.lookup hist b) mx : ℝ) = 100) ∧
    ∀ b ∈ (hist_template Real.rpow).map Prod.fst,
      (0 : ℝ) ≤ scaled (Hist.lookup hist b) mx ∧ (scaled (Hist.lookup hist b) mx : ℝ) ≤ 100 := by
  have hsorted : (hist.map Prod.fst).Pairwise (· < ·) := by
    rw [hkeys]; exact template_keys_sorted
  have hmx : (0 : ℝ) < mx := by exact_mod_cast hpos
  constructor
  · obtain ⟨q, hq, hqmx⟩ := hatt
    refine ⟨q.1, by rw [← hkeys]; exact List.mem_map_of_mem _ hq, ?_⟩
    rw [lookup_of_mem hist hsorted q.1 q.2 hq, hqmx]
    unfold scaled
    field_simp
  · intro b hb
    obtain ⟨q, hq, rfl⟩ := exists_entry_of_key hist b hkeys hb
    rw [lookup_of_mem hist hsorted q.1 q.2 hq]
    have hle : (q.2 : ℝ) ≤ mx := by exact_mod_cast hbound q hq
    have hq0 : (0 : ℝ) ≤ q.2 := Nat.cast_nonneg _
    unfold scaled
    constructor
    · positivity
    · rw [div_le_iff₀ hmx]; linarith

/-- With a positive maximum count, a count scales to `100` exactly when it equals the
maximum. -/
theorem scaled_eq_100_iff (c mx : Nat) (hpos : 0 < mx) : (scaled c mx : ℝ) = 100 ↔ c = mx := by
  have hmx : (mx : ℝ) ≠ 0 := by exact_mod_cast (Nat.pos_iff_ne_zero.1 hpos)
  unfold scaled
  rw [div_eq_iff hmx]
  constructor
  · intro h
    have h' : (c : ℝ) = mx := by linarith
    exact_mod_cast h'
  · intro h
    rw [h]

end Normalisation

/-! Section: Report labels. -/

section Labels

end Labels

/-! Section: The specification claims. -/

section Claims

/-- C1, counterexample: with a correctly rounded `pow`, the boundary of `-20` dBFS is the
double nearest to `1/10`, which is greater than `1/10 = 10^(-20/20)`.  The sample with that
value is counted in the `-20` dBFS bucket, although it does not satisfy
`|x| ≤ 10^(-20/20)`: the bucket is not characterised by the exact powers. -/
theorem exact_boundary_misplaces :
    |(3602879701896397 / 36028797018963968 : ℝ)| ≤ MAX_SAMPLE ℝ ∧
    (∃ c : Nat,
      (hist_template pow_double)[lower_bound (hist_template pow_double)
          |(3602879701896397 / 36028797018963968 : ℝ)|]?
        = some (fromdbfs pow_double ((-20 : Int) : ℝ), c) ∧
      peak_pass (hist_template pow_double) [(3602879701896397 / 36028797018963968 : ℝ)]
        = some ((hist_template pow_double).set
            (lower_bound (hist_template pow_double)
              |(3602879701896397 / 36028797018963968 : ℝ)|)
            (fromdbfs pow_double ((-20 : Int) : ℝ), c + 1))) ∧
    ¬ ((10 : ℝ) ^ ((((-20 : Int) : ℝ) - 1) / 20) < |(3602879701896397 / 36028797018963968 : ℝ)|
        ∧ |(3602879701896397 / 36028797018963968 : ℝ)| ≤ (10 : ℝ) ^ (((-20 : Int) : ℝ) / 20)) := by
  have hmono : ∀ d e : Int, -140 ≤ d → d < e → e ≤ 0 →
      fromdbfs pow_double (d : ℝ) < fromdbfs pow_double (e : ℝ) :=
    fun d e _ hde _ => fromdbfs_pow_double_lt d e hde
  have hx : |(3602879701896397 / 36028797018963968 : ℝ)|
      = 3602879701896397 / 36028797018963968 := abs_of_pos (by norm_num)
  have hfin : |(3602879701896397 / 36028797018963968 : ℝ)| ≤ MAX_SAMPLE ℝ := by
    rw [hx]
    exact le_trans (by norm_num) (le_of_lt one_lt_MAX_SAMPLE)
  refine ⟨hfin, ?_, ?_⟩
  · obtain ⟨k, c, hget, hk, hak, hleast⟩ :=
      lower_bound_template_of pow_double hmono fromdbfs_pow_double_zero
        (hist_template pow_double) _ rfl hfin
    have hb := (bucket_of_value_of pow_double hmono fromdbfs_pow_double_zero
      (hist_template pow_double) _ k rfl hk hak hleast).2.1 (-20) (by norm_num) (by norm_num)
    have hk20 : k = fromdbfs pow_double ((-20 : Int) : ℝ) := by
      apply hb.2
      rw [hx, ← fromdbfs_pow_double_m20]
      exact ⟨fromdbfs_pow_double_lt _ _ (by norm_num), le_rfl⟩
    subst hk20
    refine ⟨c, hget, ?_⟩
    simp [peak_pass, increment_eq_set _ _ _ c hget]
  · rintro ⟨_, hle⟩
    rw [hx, show (((-20 : Int) : ℝ)) / 20 = -1 by norm_num, Real.rpow_neg_one] at hle
    norm_num at hle

/-- C1, amended: for every `pow` whose boundaries `fromdbfs(d) = pow(10, d/20)` increase
strictly with `d` on `-140..0` and with `pow(10, 0) = 1`, for every finite sample value `x`
(magnitude at most `MAX_SAMPLE`) and every histogram over the bucket table, the peak
classification step (`lower_bound` at `|x|`, then increment) succeeds and changes exactly one
entry, adding one to its count.  That entry has the smallest boundary `k` that is at least
`|x|`: it is the sentinel iff `|x| > 1`; it is the bucket of `d` dBFS, for every integer
`-139 ≤ d ≤ 0`, iff `fromdbfs(d-1) < |x| ≤ fromdbfs(d)`; and it is the `-140` dBFS bucket iff
`|x| ≤ fromdbfs(-140)`. -/
theorem peak_classification_bucket (pow : ℝ → ℝ → ℝ)
    (hmono : ∀ d e : Int, -140 ≤ d → d < e → e ≤ 0 →
      fromdbfs pow (d : ℝ) < fromdbfs pow (e : ℝ))
    (hone : fromdbfs pow 0 = 1) (hist : Hist ℝ) (x : ℝ)
    (hkeys : hist.map Prod.fst = (hist_template pow).map Prod.fst)
    (hfin : |x| ≤ MAX_SAMPLE ℝ) :
    ∃ (k : ℝ) (c : Nat),
      hist[lower_bound hist |x|]? = some (k, c) ∧
      peak_pass hist [x] = some (hist.set (lower_bound hist |x|) (k, c + 1)) ∧
      (|x| ≤ k ∧ ∀ q ∈ hist, |x| ≤ q.1 → k ≤ q.1) ∧
      (k = MAX_SAMPLE ℝ ↔ 1 < |x|) ∧
      (∀ d : Int, -139 ≤ d → d ≤ 0 →
        (k = fromdbfs pow (d : ℝ) ↔
          fromdbfs pow ((d : ℝ) - 1) < |x| ∧ |x| ≤ fromdbfs pow (d : ℝ))) ∧
      (k = fromdbfs pow (-140) ↔ |x| ≤ fromdbfs pow (-140)) := by
  obtain ⟨k, c, hget, hk, hak, hleast⟩ :=
    lower_bound_template_of pow hmono hone hist |x| hkeys hfin
  obtain ⟨h1, h2, h3⟩ := bucket_of_value_of pow hmono hone hist |x| k hkeys hk hak hleast
  refine ⟨k, c, hget, ?_, ⟨hak, hleast⟩, h1, ?_, ?_⟩
  · simp [peak_pass, increment_eq_set hist _ k c hget]
  · intro d hd hd0
    have := h2 d hd hd0
    rwa [Int.cast_sub, Int.cast_one] at this
  · have : (((-140 : Int)) : ℝ) = -140 := by norm_num
    rwa [this] at h3

/-- C1, amended, for the correctly rounded `pow`, at the sample `1.0` on the fresh
template. -/
theorem peak_classification_bucket_witness :
    ∃ (k : ℝ) (c : Nat),
      (hist_template pow_double)[lower_bound (hist_template pow_double) |(1 : ℝ)|]?
        = some (k, c) ∧
      peak_pass (hist_template pow_double) [(1 : ℝ)]
        = some ((hist_template pow_double).set
            (lower_bound (hist_template pow_double) |(1 : ℝ)|) (k, c + 1)) ∧
      (|(1 : ℝ)| ≤ k ∧ ∀ q ∈ hist_template pow_double, |(1 : ℝ)| ≤ q.1 → k ≤ q.1) ∧
      (k = MAX_SAMPLE ℝ ↔ 1 < |(1 : ℝ)|) ∧
      (∀ d : Int, -139 ≤ d → d ≤ 0 →
        (k = fromdbfs pow_double (d : ℝ) ↔
          fromdbfs pow_double ((d : ℝ) - 1) < |(1 : ℝ)| ∧
            |(1 : ℝ)| ≤ fromdbfs pow_double (d : ℝ))) ∧
      (k = fromdbfs pow_double (-140) ↔ |(1 : ℝ)| ≤ fromdbfs pow_double (-140)) :=
  peak_classification_bucket pow_double (fun d e _ hde _ => fromdbfs_pow_double_lt d e hde)
    fromdbfs_pow_double_zero (hist_template pow_double) 1 rfl
    (by rw [abs_one]; exact le_of_lt one_lt_MAX_SAMPLE)

/-- C2: for every signal of finite samples, the peak pass over the channel, started from the
template, runs to completion, and the sum of all bucket counts of the resulting peak
histogram equals the number of samples of the signal. -/
theorem peak_histogram_total (content : List ℝ)
    (hfin : ∀ x ∈ content, |x| ≤ MAX_SAMPLE ℝ) :
    ∃ h, peak_pass (hist_template Real.rpow) content = some h ∧
      (h.map Prod.snd).sum = content.length := by
  obtain ⟨h, hp, _, hs⟩ := peak_pass_total content hfin (hist_template Real.rpow) rfl
  exact ⟨h, hp, by rw [hs, template_sum_zero, Nat.zero_add]⟩

/-- C2, at the three-sample signal `1, 0, -1/2`. -/
theorem peak_histogram_total_witness :
    ∃ h, peak_pass (hist_template Real.rpow) [(1 : ℝ), 0, -(1 / 2)] = some h ∧
      (h.map Prod.snd).sum = [(1 : ℝ), 0, -(1 / 2)].length :=
  peak_histogram_total [(1 : ℝ), 0, -(1 / 2)] (by
    intro x hx
    have hM := one_lt_MAX_SAMPLE
    simp only [List.mem_cons, List.mem_singleton, List.not_mem_nil, or_false] at hx
    rcases hx with rfl | rfl | rfl
    · rw [abs_one]; linarith
    · rw [abs_zero]; linarith
    · rw [abs_neg, abs_of_pos (by norm_num : (0 : ℝ) < 1 / 2)]; linarith)

/-- C4, counterexample: on the two-sample signal `[1, 0]` the peak histogram has two
different buckets, the one of `0` dBFS and the one of `-140` dBFS, that both hold the maximum
count `1` and both scale to `100`: it is not true that exactly one bucket scales to `100`. -/
theorem normalisation_two_maxima :
    ∃ h, peak_pass (hist_template Real.rpow) [(1 : ℝ), 0] = some h ∧
      find_max_value h = some 1 ∧
      fromdbfs Real.rpow 0 ≠ fromdbfs Real.rpow (-140) ∧
      (scaled (Hist.lookup h (fromdbfs Real.rpow 0)) 1 : ℝ) = 100 ∧
      (scaled (Hist.lookup h (fromdbfs Real.rpow (-140))) 1 : ℝ) = 100 ∧
      ¬ ∃! bucket, bucket ∈ h.map Prod.fst ∧ (scaled (Hist.lookup h bucket) 1 : ℝ) = 100 := by
  have hM := one_lt_MAX_SAMPLE
  have hne : fromdbfs Real.rpow 0 ≠ fromdbfs Real.rpow (-140) := by
    intro h; have := fromdbfs_rpow_inj h; norm_num at this
  -- first sample: the `0` dBFS bucket
  obtain ⟨k1, c1, hget1, hkm1, hak1, hleast1⟩ :=
    lower_bound_template (hist_template Real.rpow) |(1 : ℝ)| rfl (by rw [abs_one]; linarith)
  have hb1 := (bucket_of_value _ _ k1 rfl hkm1 hak1 hleast1).2.1 0 (by norm_num) le_rfl
  simp only [Int.cast_zero, abs_one] at hb1
  have hk1eq : k1 = fromdbfs Real.rpow 0 :=
    hb1.2 ⟨lt_of_lt_of_eq (fromdbfs_rpow_lt (by norm_num)) fromdbfs_rpow_zero,
      le_of_eq fromdbfs_rpow_zero.symm⟩
  have hc1 : c1 = 0 := template_counts_zero (k1, c1) (List.getElem?_mem hget1)
  subst hc1
  have hinc1 := increment_eq_set _ _ k1 0 hget1
  obtain ⟨hkeys1, _⟩ := increment_keys_sum _ _ _ hinc1
  generalize hi1 : lower_bound (hist_template Real.rpow) |(1 : ℝ)| = i1 at *
  generalize hh1 : (hist_template Real.rpow).set i1 (k1, 0 + 1) = h1 at *
  -- second sample: the `-140` dBFS bucket
  obtain ⟨k2, c2, hget2, hkm2, hak2, hleast2⟩ :=
    lower_bound_template h1 |(0 : ℝ)| hkeys1 (by rw [abs_zero]; linarith)
  have hk2eq : k2 = fromdbfs Real.rpow (-140) :=
    (bucket_of_value _ _ k2 hkeys1 hkm2 hak2 hleast2).2.2.2
      (by rw [abs_zero]; exact le_of_lt (fromdbfs_rpow_pos _))
  have hk12 : k1 ≠ k2 := by rw [hk1eq, hk2eq]; exact hne
  have hc2 : c2 = 0 := by
    have hmem : (k2, c2) ∈ (hist_template Real.rpow).set i1 (k1, 0 + 1) := by
      rw [hh1]; exact List.getElem?_mem hget2
    rcases List.mem_or_eq_of_mem_set hmem with h | h
    · exact template_counts_zero (k2, c2) h
    · exact absurd (congrArg Prod.fst h).symm hk12
  subst hc2
  have hinc2 := increment_eq_set _ _ k2 0 hget2
  obtain ⟨hkeys2, _⟩ := increment_keys_sum _ _ _ hinc2
  generalize hi2 : lower_bound h1 |(0 : ℝ)| = i2 at *
  have hsorted : (List.map Prod.fst (h1.set i2 (k2, 0 + 1))).Pairwise (· < ·) := by
    rw [hkeys2, hkeys1]; exact template_keys_sorted
  have hi1lt : i1 < (hist_template Real.rpow).length := by
    by_contra hcon
    rw [List.getElem?_eq_none (not_lt.1 hcon)] at hget1
    exact absurd hget1 (by simp)
  have hi2lt : i2 < h1.length := by
    by_contra hcon
    rw [List.getElem?_eq_none (not_lt.1 hcon)] at hget2
    exact absurd hget2 (by simp)
  have hget1' : h1[i1]? = some (k1, 0 + 1) := by
    rw [← hh1, List.getElem?_set_self hi1lt]
  have hi12 : i2 ≠ i1 := by
    intro h
    rw [h, hget1'] at hget2
    exact hk12 (congrArg Prod.fst (Option.some.inj hget2))
  have hmem1 : (k1, 0 + 1) ∈ h1.set i2 (k2, 0 + 1) := by
    have : (h1.set i2 (k2, 0 + 1))[i1]? = some (k1, 0 + 1) := by
      rw [List.getElem?_set_ne hi12, hget1']
    exact List.getElem?_mem this
  have hmem2 : (k2, 0 + 1) ∈ h1.set i2 (k2, 0 + 1) := by
    have : (h1.set i2 (k2, 0 + 1))[i2]? = some (k2, 0 + 1) := List.getElem?_set_self hi2lt
    exact List.getElem?_mem this
  have hle1 : ∀ q ∈ h1.set i2 (k2, 0 + 1), q.2 ≤ 1 := by
    intro q hq
    rcases List.mem_or_eq_of_mem_set hq with h | h
    · rw [← hh1] at h
      rcases List.mem_or_eq_of_mem_set h with h' | h'
      · rw [template_counts_zero q h']; exact Nat.zero_le _
      · rw [h']
    · rw [h]
  obtain ⟨mx, hmx, ⟨q, hq, hqmx⟩, hbound⟩ :=
    find_max_value_spec (h1.set i2 (k2, 0 + 1)) (List.ne_nil_of_mem hmem1)
  have hmx1 : mx = 1 := by
    have h1' := hbound _ hmem1
    have h2' := hle1 q hq
    simp only at h1'
    omega
  subst hmx1
  have hl1 := lookup_of_mem _ hsorted k1 (0 + 1) hmem1
  have hl2 := lookup_of_mem _ hsorted k2 (0 + 1) hmem2
  have hs1 : (scaled (Hist.lookup (h1.set i2 (k2, 0 + 1)) k1) 1 : ℝ) = 100 := by
    rw [hl1]; simp [scaled]
  have hs2 : (scaled (Hist.lookup (h1.set i2 (k2, 0 + 1)) k2) 1 : ℝ) = 100 := by
    rw [hl2]; simp [scaled]
  refine ⟨h1.set i2 (k2, 0 + 1), ?_, hmx, hne, hk1eq ▸ hs1, hk2eq ▸ hs2, ?_⟩
  · simp only [peak_pass, List.foldlM_cons, List.foldlM_nil, hi1, hinc1, Option.some_bind,
      hi2, hinc2, Option.pure_def, Option.bind_eq_bind]
  · rintro ⟨b, _, huniq⟩
    have e1 := huniq k1 ⟨List.mem_map_of_mem Prod.fst hmem1, hs1⟩
    have e2 := huniq k2 ⟨List.mem_map_of_mem Prod.fst hmem2, hs2⟩
    exact hk12 (e1.trans e2.symm)

/-- C4, amended: for a non-empty channel signal of at most `INT_MAX` samples of magnitude at
most `B` and a window size `W ≥ 1` with `W * B^2 ≤ 2^1023` (no window can overflow), the work
on the channel runs to completion, with the histograms of the peak pass and of the RMS loop
and with `find_max_value` of each as its maximum.  In each of the two histograms (peak, first
cell; RMS, second cell) at least one bucket of the table is reported as `100`, every bucket
of the table is reported as a value between `0` and `100`, and a bucket is reported as `100`
exactly when its count is the maximum. -/
theorem normalisation_range (content : List ℝ) (hne : content ≠ []) (B : ℝ)
    (hB : ∀ x ∈ content, |x| ≤ B) (W : Nat) (hW : 1 ≤ W) (hBW : (W : ℝ) * B ^ 2 ≤ 2 ^ 1023)
    (hlen : content.length ≤ INT_MAX) :
    ∃ cd : ChannelData ℝ,
      (∀ fuel, content.length < fuel →
        process_channel Real.sqrt (hist_template Real.rpow) content W fuel = Run.done cd) ∧
      peak_pass (hist_template Real.rpow) content = some cd.hist_pk ∧
      (∀ fuel, content.length < fuel →
        rms_loop Real.sqrt content W fuel 0 (hist_template Real.rpow) = Run.done cd.hist_rms) ∧
      find_max_value cd.hist_pk = some cd.max_num_of_pk ∧
      find_max_value cd.hist_rms = some cd.max_num_of_rms ∧
      (∃ b ∈ (hist_template Real.rpow).map Prod.fst, (report_cells cd b).1 = 100) ∧
      (∃ b ∈ (hist_template Real.rpow).map Prod.fst, (report_cells cd b).2 = 100) ∧
      ∀ b ∈ (hist_template Real.rpow).map Prod.fst,
        (0 ≤ (report_cells cd b).1 ∧ (report_cells cd b).1 ≤ 100) ∧
        (0 ≤ (report_cells cd b).2 ∧ (report_cells cd b).2 ≤ 100) ∧
        ((report_cells cd b).1 = 100 ↔ Hist.lookup cd.hist_pk b = cd.max_num_of_pk) ∧
        ((report_cells cd b).2 = 100 ↔ Hist.lookup cd.hist_rms b = cd.max_num_of_rms) := by
  have hpos : 0 < content.length := List.length_pos.2 hne
  obtain ⟨cd, hrun, hp, hr, hm1, hm2, hkp, hkr, hsp, hsr, ⟨hp1, hp2⟩, ⟨hr1, hr2⟩⟩ :=
    process_channel_total content B hB W hW hBW hlen
  have hpk0 : 0 < cd.max_num_of_pk := by
    rcases Nat.eq_zero_or_pos cd.max_num_of_pk with h0 | h0
    · have := (max_zero_iff_sum_zero cd.hist_pk _ hp1 hp2).1 h0
      omega
    · exact h0
  have hrms0 : 0 < cd.max_num_of_rms := by
    rcases Nat.eq_zero_or_pos cd.max_num_of_rms with h0 | h0
    · have := (max_zero_iff_sum_zero cd.hist_rms _ hr1 hr2).1 h0
      have hq : 1 ≤ (content.length + W - 1) / W := by
        rw [Nat.le_div_iff_mul_le (by omega)]; omega
      omega
    · exact h0
  obtain ⟨hpa, hpb⟩ := scaled_range cd.hist_pk cd.max_num_of_pk hkp hpk0 hp1 hp2
  obtain ⟨hra, hrb⟩ := scaled_range cd.hist_rms cd.max_num_of_rms hkr hrms0 hr1 hr2
  exact ⟨cd, hrun, hp, hr, hm1, hm2, hpa, hra, fun b hb => ⟨hpb b hb, hrb b hb,
    scaled_eq_100_iff _ _ hpk0, scaled_eq_100_iff _ _ hrms0⟩⟩

/-- C4, amended, at the two-sample signal `[1, 0]` with window size `1`. -/
theorem normalisation_range_witness :
    ∃ cd : ChannelData ℝ,
      (∀ fuel, [(1 : ℝ), 0].length < fuel →
        process_channel Real.sqrt (hist_template Real.rpow) [(1 : ℝ), 0] 1 fuel
          = Run.done cd) ∧
      peak_pass (hist_template Real.rpow) [(1 : ℝ), 0] = some cd.hist_pk ∧
      (∀ fuel, [(1 : ℝ), 0].length < fuel →
        rms_loop Real.sqrt [(1 : ℝ), 0] 1 fuel 0 (hist_template Real.rpow)
          = Run.done cd.hist_rms) ∧
      find_max_value cd.hist_pk = some cd.max_num_of_pk ∧
      find_max_value cd.hist_rms = some cd.max_num_of_rms ∧
      (∃ b ∈ (hist_template Real.rpow).map Prod.fst, (report_cells cd b).1 = 100) ∧
      (∃ b ∈ (hist_template Real.rpow).map Prod.fst, (report_cells cd b).2 = 100) ∧
      ∀ b ∈ (hist_template Real.rpow).map Prod.fst,
        (0 ≤ (report_cells cd b).1 ∧ (report_cells cd b).1 ≤ 100) ∧
        (0 ≤ (report_cells cd b).2 ∧ (report_cells cd b).2 ≤ 100) ∧
        ((report_cells cd b).1 = 100 ↔ Hist.lookup cd.hist_pk b = cd.max_num_of_pk) ∧
        ((report_cells cd b).2 = 100 ↔ Hist.lookup cd.hist_rms b = cd.max_num_of_rms) :=
  normalisation_range [(1 : ℝ), 0] (by simp) 1 (by
    intro x hx
    simp only [List.mem_cons, List.mem_singleton, List.not_mem_nil, or_false] at hx
    rcases hx with rfl | rfl <;> simp) 1 le_rfl (by norm_num) (by simp [INT_MAX])

/-- C6, counterexample: the samples `x = 0.00000001` and `y = 0` have `|x| > |y|`, and on the
template both are classified into one and the same bucket, the one of `-140` dBFS: the bucket
of the larger sample has a boundary equal to that of the smaller one. -/
theorem classification_same_bucket :
    |(0 : ℝ)| < |(1 / 100000000 : ℝ)| ∧
    ∃ cx cy,
      (hist_template Real.rpow)[lower_bound (hist_template Real.rpow) |(1 / 100000000 : ℝ)|]?
        = some (fromdbfs Real.rpow (-140), cx) ∧
      (hist_template Real.rpow)[lower_bound (hist_template Real.rpow) |(0 : ℝ)|]?
        = some (fromdbfs Real.rpow (-140), cy) := by
  have hM := one_lt_MAX_SAMPLE
  have hb : (1 / 100000000 : ℝ) ≤ fromdbfs Real.rpow (-140) := by
    rw [fromdbfs_rpow, show (-140 : ℝ) / 20 = -((7 : Nat) : ℝ) by norm_num,
      Real.rpow_neg (by norm_num), Real.rpow_natCast]
    norm_num
  have hx : |(1 / 100000000 : ℝ)| = 1 / 100000000 := abs_of_pos (by norm_num)
  refine ⟨by rw [hx, abs_zero]; norm_num, ?_⟩
  obtain ⟨kx, cx, hgx, hkx, hax, hlx⟩ :=
    lower_bound_template (hist_template Real.rpow) |(1 / 100000000 : ℝ)| rfl
      (by rw [hx]; linarith)
  obtain ⟨ky, cy, hgy, hky, hay, hly⟩ :=
    lower_bound_template (hist_template Real.rpow) |(0 : ℝ)| rfl (by rw [abs_zero]; linarith)
  have ex : kx = fromdbfs Real.rpow (-140) :=
    (bucket_of_value _ _ kx rfl hkx hax hlx).2.2.2 (by rw [hx]; exact hb)
  have ey : ky = fromdbfs Real.rpow (-140) :=
    (bucket_of_value _ _ ky rfl hky hay hly).2.2.2
      (by rw [abs_zero]; exact le_of_lt (fromdbfs_rpow_pos _))
  exact ⟨cx, cy, ex ▸ hgx, ey ▸ hgy⟩

/-- C6, amended: classification is weakly monotonic.  For every two sample values `x` and
`y` with `|x| > |y|` and `|x|` finite, on a histogram over the bucket table, the bucket `x`
is classified into never has a lower boundary, nor an earlier position, than the bucket `y`
is classified into (the two may be the same bucket); and a sample whose magnitude equals a
boundary is classified into the bucket of that boundary. -/
theorem classification_monotone (hist : Hist ℝ) (x y : ℝ)
    (hkeys : hist.map Prod.fst = (hist_template Real.rpow).map Prod.fst)
    (hfin : |x| ≤ MAX_SAMPLE ℝ) (hxy : |y| < |x|) :
    ∃ kx cx ky cy,
      hist[lower_bound hist |x|]? = some (kx, cx) ∧
      hist[lower_bound hist |y|]? = some (ky, cy) ∧
      ky ≤ kx ∧ lower_bound hist |y| ≤ lower_bound hist |x| ∧
      (|x| ∈ hist.map Prod.fst → kx = |x|) := by
  obtain ⟨kx, cx, hgx, hkx, hax, hlx⟩ := lower_bound_template hist |x| hkeys hfin
  obtain ⟨ky, cy, hgy, hky, hay, hly⟩ :=
    lower_bound_template hist |y| hkeys (le_trans (le_of_lt hxy) hfin)
  refine ⟨kx, cx, ky, cy, hgx, hgy, ?_, ?_, ?_⟩
  · exact hly (kx, cx) (List.getElem?_mem hgx) (le_trans (le_of_lt hxy) hax)
  · by_contra hcon
    have hlt : lower_bound hist |x| < lower_bound hist |y| := not_le.1 hcon
    have := lower_bound_before hist |y| _ (kx, cx) hlt hgx
    simp only at this
    linarith
  · intro hmem
    obtain ⟨q, hq, hqx⟩ := List.mem_map.1 hmem
    have := hlx q hq (le_of_eq hqx.symm)
    rw [hqx] at this
    exact le_antisymm this hax

/-- C6, amended, at the samples `1` and `0` on the template. -/
theorem classification_monotone_witness :
    ∃ kx cx ky cy,
      (hist_template Real.rpow)[lower_bound (hist_template Real.rpow) |(1 : ℝ)|]?
        = some (kx, cx) ∧
      (hist_template Real.rpow)[lower_bound (hist_template Real.rpow) |(0 : ℝ)|]?
        = some (ky, cy) ∧
      ky ≤ kx ∧
      lower_bound (hist_template Real.rpow) |(0 : ℝ)|
        ≤ lower_bound (hist_template Real.rpow) |(1 : ℝ)| ∧
      (|(1 : ℝ)| ∈ (hist_template Real.rpow).map Prod.fst → kx = |(1 : ℝ)|) :=
  classification_monotone (hist_template Real.rpow) 1 0 rfl
    (by rw [abs_one]; exact le_of_lt one_lt_MAX_SAMPLE) (by rw [abs_one, abs_zero]; norm_num)

/-- C5: for all channel counts `C ≥ 1`, all frame counts `F` (so in particular `F ≥ 1`) and
every interleaved buffer of length `F * C` that is read completely (`nread = F * C`), the channel splitter yields for
each channel `c < C` a signal of length `F` whose sample `i` is `buffer[i * C + c]`, an index
inside the buffer; and re-interleaving the `C` signals (`out[i * C + c] = signal[c][i]`)
gives back the buffer. -/
theorem split_reinterleave_roundtrip {α : Type} [LinearOrderedField α] (C F : Nat)
    (hC : 1 ≤ C) (buffer : List α) (hlen : buffer.length = F * C) :
    (∀ c, c < C → (split_channel buffer (F * C) C c).length = F ∧
      ∀ i, i < F → i * C + c < buffer.length ∧
        (split_channel buffer (F * C) C c)[i]? = buffer[i * C + c]?) ∧
    reinterleave ((List.range C).map (fun c => split_channel buffer (F * C) C c)) F C
      = buffer := by
  have hdiv : F * C / C = F := Nat.mul_div_cancel _ (by omega)
  have hidx : ∀ c i, c < C → i < F → i * C + c < buffer.length := by
    intro c i hc hi
    rw [hlen]
    calc i * C + c < i * C + C := by omega
      _ = (i + 1) * C := by ring
      _ ≤ F * C := Nat.mul_le_mul_right _ (by omega)
  have hget : ∀ c i, c < C → i < F →
      (split_channel buffer (F * C) C c)[i]? = buffer[i * C + c]? := by
    intro c i hc hi
    have hlt := hidx c i hc hi
    simp only [split_channel, hdiv, List.getElem?_map, List.getElem?_range hi,
      Option.map_some', List.getD_eq_getElem?_getD, List.getElem?_eq_getElem hlt,
      Option.getD_some]
  refine ⟨?_, ?_⟩
  · intro c hc
    refine ⟨by simp [split_channel, hdiv], ?_⟩
    intro i hi
    exact ⟨hidx c i hc hi, hget c i hc hi⟩
  · apply List.ext_getElem
    · simp [reinterleave, hlen]
    · intro j h1 h2
      have hj : j < F * C := by simpa [reinterleave] using h1
      have hmod : j % C < C := Nat.mod_lt _ (by omega)
      have hquo : j / C < F := by
        rw [Nat.div_lt_iff_lt_mul (by omega)]; exact hj
      have hsig : ((List.range C).map (fun c => split_channel buffer (F * C) C c)).getD
          (j % C) [] = split_channel buffer (F * C) C (j % C) := by
        simp [List.getD_eq_getElem?_getD, List.getElem?_range hmod]
      have hval := hget (j % C) (j / C) hmod hquo
      have hjeq : j / C * C + j % C = j := Nat.div_add_mod' j C
      rw [hjeq, List.getElem?_eq_getElem h2] at hval
      simp only [reinterleave, List.getElem_map, List.getElem_range]
      rw [hsig, List.getD_eq_getElem?_getD, hval, Option.getD_some]

/-- C5, at a stereo buffer of three frames. -/
theorem split_reinterleave_roundtrip_witness :
    (∀ c, c < 2 → (split_channel [(1 : ℚ), 2, 3, 4, 5, 6] (3 * 2) 2 c).length = 3 ∧
      ∀ i, i < 3 → i * 2 + c < [(1 : ℚ), 2, 3, 4, 5, 6].length ∧
        (split_channel [(1 : ℚ), 2, 3, 4, 5, 6] (3 * 2) 2 c)[i]?
          = [(1 : ℚ), 2, 3, 4, 5, 6][i * 2 + c]?) ∧
    reinterleave
        ((List.range 2).map (fun c => split_channel [(1 : ℚ), 2, 3, 4, 5, 6] (3 * 2) 2 c)) 3 2
      = [(1 : ℚ), 2, 3, 4, 5, 6] :=
  split_reinterleave_roundtrip 2 3 (by decide) [(1 : ℚ), 2, 3, 4, 5, 6] rfl

/-- C3, counterexample: the one-sample signal `[2^600]` is a finite double, but with window
size `1` its square overflows to `+inf` in `get_window_rms`, `lower_bound` returns `end()`
and the increment is undefined: the RMS loop does not finish with a histogram whose counts
sum to `ceil(1 / 1) = 1`. -/
theorem rms_overflow_undefined :
    |(2 : ℝ) ^ 600| ≤ MAX_SAMPLE ℝ ∧
    get_window_rms_ieee Real.sqrt [(2 : ℝ) ^ 600] 0 1 = some DoubleVal.inf ∧
    rms_loop Real.sqrt [(2 : ℝ) ^ 600] 1 2 0 (hist_template Real.rpow) = Run.undefined ∧
    ¬ ∃ h, (∀ fuel, [(2 : ℝ) ^ 600].length < fuel →
        rms_loop Real.sqrt [(2 : ℝ) ^ 600] 1 fuel 0 (hist_template Real.rpow) = Run.done h) ∧
      (h.map Prod.snd).sum = ⌈([(2 : ℝ) ^ 600].length : ℝ) / ((1 : Nat) : ℝ)⌉₊ := by
  have hrun : rms_loop Real.sqrt [(2 : ℝ) ^ 600] 1 2 0 (hist_template Real.rpow)
      = Run.undefined := by
    simp [rms_loop, (rms_body_overflow (hist_template Real.rpow)).2]
  refine ⟨?_, (rms_body_overflow []).1, hrun, ?_⟩
  · rw [abs_of_pos (by positivity)]
    unfold MAX_SAMPLE
    norm_num
  · rintro ⟨h, hdone, _⟩
    have := hdone 2 (by simp)
    rw [hrun] at this
    exact absurd this (by simp)

/-- C3, amended: for every signal of `L ≤ INT_MAX` samples of magnitude at most `B` and every
window size `W ≥ 1` with `W * B^2 ≤ 2^1023`, so that no window's sum of squares can overflow,
the RMS loop started at offset `0` on the template terminates (any bound above `L` on the
number of evaluations of the loop condition is enough), each completed iteration moves the
offset from `i` to `i + W`, and the sum of all bucket counts of the resulting RMS histogram
is `ceil(L / W)`. -/
theorem rms_histogram_total (content : List ℝ) (B : ℝ) (hB : ∀ x ∈ content, |x| ≤ B)
    (W : Nat) (hW : 1 ≤ W) (hBW : (W : ℝ) * B ^ 2 ≤ 2 ^ 1023)
    (hlen : content.length ≤ INT_MAX) :
    ∃ h, (∀ fuel, content.length < fuel →
        rms_loop Real.sqrt content W fuel 0 (hist_template Real.rpow) = Run.done h) ∧
      (∀ i hist i' h', rms_body Real.sqrt content W i hist = some (i', h') → i' = i + W) ∧
      (h.map Prod.snd).sum = ⌈(content.length : ℝ) / (W : ℝ)⌉₊ := by
  obtain ⟨cd, _, _, hr, _, _, _, _, _, hsr, _, _⟩ :=
    process_channel_total content B hB W hW hBW hlen
  refine ⟨cd.hist_rms, hr, ?_, ?_⟩
  · intro i hist i' h' hb
    exact rms_body_offset Real.sqrt content W i hist i' h' hb
  · rw [hsr, ceil_div_eq _ _ hW]

/-- C3, amended, at a five-sample signal of nominal samples with window size `2`: three
windows. -/
theorem rms_histogram_total_witness :
    ∃ h, (∀ fuel, [(1 : ℝ), 0, 0, 0, 1].length < fuel →
        rms_loop Real.sqrt [(1 : ℝ), 0, 0, 0, 1] 2 fuel 0 (hist_template Real.rpow)
          = Run.done h) ∧
      (∀ i hist i' h',
        rms_body Real.sqrt [(1 : ℝ), 0, 0, 0, 1] 2 i hist = some (i', h') → i' = i + 2) ∧
      (h.map Prod.snd).sum = ⌈([(1 : ℝ), 0, 0, 0, 1].length : ℝ) / ((2 : Nat) : ℝ)⌉₊ :=
  rms_histogram_total [(1 : ℝ), 0, 0, 0, 1] 1 (by
    intro x hx
    simp only [List.mem_cons, List.mem_singleton, List.not_mem_nil, or_false] at hx
    rcases hx with rfl | rfl | rfl | rfl | rfl <;> simp) 2 (by decide) (by norm_num)
    (by simp [INT_MAX])

/-- C9, counterexample: the channel signal `[2^600]` has one sample and the window size is
`1`, yet no maximum is recorded for its RMS histogram: the window value overflows to `+inf`,
`lower_bound` returns `end()`, and the work on the channel is undefined from there on. -/
theorem process_channel_overflow_undefined :
    |(2 : ℝ) ^ 600| ≤ MAX_SAMPLE ℝ ∧
    process_channel Real.sqrt (hist_template Real.rpow) [(2 : ℝ) ^ 600] 1 2 = Run.undefined ∧
    ¬ ∃ cd : ChannelData ℝ, ∀ fuel, [(2 : ℝ) ^ 600].length < fuel →
      process_channel Real.sqrt (hist_template Real.rpow) [(2 : ℝ) ^ 600] 1 fuel
        = Run.done cd := by
  have hM : |(2 : ℝ) ^ 600| ≤ MAX_SAMPLE ℝ := by
    rw [abs_of_pos (by positivity)]
    unfold MAX_SAMPLE
    norm_num
  have hrun : process_channel Real.sqrt (hist_template Real.rpow) [(2 : ℝ) ^ 600] 1 2
      = Run.undefined := by
    obtain ⟨h, hp, _, _⟩ := peak_pass_total [(2 : ℝ) ^ 600]
      (by intro x hx; simp only [List.mem_singleton] at hx; subst hx; exact hM)
      (hist_template Real.rpow) rfl
    simp [process_channel, hp, rms_loop, (rms_body_overflow (hist_template Real.rpow)).2]
  refine ⟨hM, hrun, ?_⟩
  rintro ⟨cd, hdone⟩
  have := hdone 2 (by simp)
  rw [hrun] at this
  exact absurd this (by simp)

/-- C9, amended: every histogram over the 142-entry bucket table passes the non-emptiness
assertion of `find_max_value`, and the maximum it returns is `0` iff the counts sum to `0`,
i.e. iff nothing was classified into it.  For a channel signal of at most `INT_MAX` samples
of magnitude at most `B`, with a window size `W` such that `W * B^2 ≤ 2^1023` (no window can
overflow) and `W ≥ 1` unless the signal is empty, the work on the channel runs to completion:
the histograms are the results of the peak pass and of the RMS loop, the maxima are the
results of `find_max_value` on them, and each of the two maxima, the divisors of the
normalisation, is `0` iff the signal is empty. -/
theorem max_count_zero_iff_empty (content : List ℝ) (B : ℝ) (hB : ∀ x ∈ content, |x| ≤ B)
    (W : Nat) (hBW : (W : ℝ) * B ^ 2 ≤ 2 ^ 1023) (hW : content ≠ [] → 1 ≤ W)
    (hlen : content.length ≤ INT_MAX) :
    (∀ hist : Hist ℝ, hist.map Prod.fst = (hist_template Real.rpow).map Prod.fst →
      ∃ mx, find_max_value hist = some mx ∧ (mx = 0 ↔ (hist.map Prod.snd).sum = 0)) ∧
    ∃ cd : ChannelData ℝ,
      (∀ fuel, content.length < fuel →
        process_channel Real.sqrt (hist_template Real.rpow) content W fuel = Run.done cd) ∧
      peak_pass (hist_template Real.rpow) content = some cd.hist_pk ∧
      (∀ fuel, content.length < fuel →
        rms_loop Real.sqrt content W fuel 0 (hist_template Real.rpow) = Run.done cd.hist_rms) ∧
      find_max_value cd.hist_pk = some cd.max_num_of_pk ∧
      find_max_value cd.hist_rms = some cd.max_num_of_rms ∧
      (cd.max_num_of_pk = 0 ↔ content = []) ∧ (cd.max_num_of_rms = 0 ↔ content = []) := by
  have hany : ∀ hist : Hist ℝ, hist.map Prod.fst = (hist_template Real.rpow).map Prod.fst →
      ∃ mx, find_max_value hist = some mx ∧ (mx = 0 ↔ (hist.map Prod.snd).sum = 0) := by
    intro hist hkeys
    obtain ⟨mx, hmx, hatt, hbound⟩ := find_max_value_spec hist (ne_nil_of_template_keys hist hkeys)
    exact ⟨mx, hmx, max_zero_iff_sum_zero hist mx hatt hbound⟩
  refine ⟨hany, ?_⟩
  by_cases hne : content = []
  · subst hne
    obtain ⟨mx, hmx, hz⟩ := hany (hist_template Real.rpow) rfl
    have hmx0 : mx = 0 := hz.2 template_sum_zero
    subst hmx0
    have hloop : ∀ fuel, ([] : List ℝ).length < fuel →
        rms_loop Real.sqrt [] W fuel 0 (hist_template Real.rpow)
          = Run.done (hist_template Real.rpow) := by
      intro fuel hfuel
      obtain ⟨f, rfl⟩ : ∃ f, fuel = f + 1 := ⟨fuel - 1, by simp at hfuel; omega⟩
      simp [rms_loop]
    refine ⟨⟨hist_template Real.rpow, hist_template Real.rpow, 0, 0⟩, ?_, rfl, hloop, hmx, hmx,
      by simp, by simp⟩
    intro fuel hfuel
    simp [process_channel, peak_pass, hloop fuel hfuel, hmx]
  · have hW1 := hW hne
    have hpos : 0 < content.length := List.length_pos.2 hne
    obtain ⟨cd, hrun, hp, hr, hm1, hm2, _, _, hsp, hsr, ⟨hp1, hp2⟩, ⟨hr1, hr2⟩⟩ :=
      process_channel_total content B hB W hW1 hBW hlen
    refine ⟨cd, hrun, hp, hr, hm1, hm2, ?_, ?_⟩
    · rw [max_zero_iff_sum_zero cd.hist_pk _ hp1 hp2, hsp]
      simp [hne]
    · rw [max_zero_iff_sum_zero cd.hist_rms _ hr1 hr2, hsr]
      have hq : 1 ≤ (content.length + W - 1) / W := by
        rw [Nat.le_div_iff_mul_le (by omega)]; omega
      simp only [hne, iff_false]
      omega

/-- C9, amended, at the one-sample signal `[1/2]` with window size `1`. -/
theorem max_count_zero_iff_empty_witness :
    (∀ hist : Hist ℝ, hist.map Prod.fst = (hist_template Real.rpow).map Prod.fst →
      ∃ mx, find_max_value hist = some mx ∧ (mx = 0 ↔ (hist.map Prod.snd).sum = 0)) ∧
    ∃ cd : ChannelData ℝ,
      (∀ fuel, [(1 / 2 : ℝ)].length < fuel →
        process_channel Real.sqrt (hist_template Real.rpow) [(1 / 2 : ℝ)] 1 fuel
          = Run.done cd) ∧
      peak_pass (hist_template Real.rpow) [(1 / 2 : ℝ)] = some cd.hist_pk ∧
      (∀ fuel, [(1 / 2 : ℝ)].length < fuel →
        rms_loop Real.sqrt [(1 / 2 : ℝ)] 1 fuel 0 (hist_template Real.rpow)
          = Run.done cd.hist_rms) ∧
      find_max_value cd.hist_pk = some cd.max_num_of_pk ∧
      find_max_value cd.hist_rms = some cd.max_num_of_rms ∧
      (cd.max_num_of_pk = 0 ↔ [(1 / 2 : ℝ)] = []) ∧
      (cd.max_num_of_rms = 0 ↔ [(1 / 2 : ℝ)] = []) :=
  max_count_zero_iff_empty [(1 / 2 : ℝ)] 1 (by
    intro x hx
    simp only [List.mem_singleton] at hx
    subst hx
    rw [abs_of_pos (by norm_num : (0 : ℝ) < 1 / 2)]; norm_num) 1 (by norm_num)
    (fun _ => le_rfl) (by simp [INT_MAX])

/-- C10, counterexample: with window size `0` on the one-sample signal `[1/2]` the RMS loop
does not go on for ever.  It is still running after `INT_MAX` evaluations of its condition,
each iteration having incremented the `int` count of the first bucket, and the next increment
overflows that count: undefined behaviour. -/
theorem rms_loop_zero_overflow :
    rms_loop Real.sqrt [(1 / 2 : ℝ)] 0 2147483647 0 (hist_template Real.rpow) = Run.running ∧
    rms_loop Real.sqrt [(1 / 2 : ℝ)] 0 2147483648 0 (hist_template Real.rpow)
      = Run.undefined ∧
    ¬ ∀ fuel, rms_loop Real.sqrt [(1 / 2 : ℝ)] 0 fuel 0 (hist_template Real.rpow)
      = Run.running := by
  obtain ⟨k, rest, hT⟩ := template_cons
  have h1 : rms_loop Real.sqrt [(1 / 2 : ℝ)] 0 2147483647 0 (hist_template Real.rpow)
      = Run.running := by
    rw [hT, rms_loop_zero Real.sqrt [(1 / 2 : ℝ)] 0 (by simp) _ k 0 rest (Nat.zero_le _)]
    simp [INT_MAX]
  have h2 : rms_loop Real.sqrt [(1 / 2 : ℝ)] 0 2147483648 0 (hist_template Real.rpow)
      = Run.undefined := by
    rw [hT, rms_loop_zero Real.sqrt [(1 / 2 : ℝ)] 0 (by simp) _ k 0 rest (Nat.zero_le _)]
    simp [INT_MAX]
  refine ⟨h1, h2, ?_⟩
  intro hall
  have := hall 2147483648
  rw [h2] at this
  exact absurd this (by simp)

/-- C10, amended: the RMS window size is `sample_rate / 200` by integer division, so it is
`0` for every sample rate in `1..199` and at least `1` from `200` on.  With window size `0`
and a non-empty channel signal, a completed iteration of the RMS loop leaves the offset
unchanged, and the loop started at offset `0` on the template never finishes: it is still
running after any number of condition checks up to `INT_MAX`, and undefined (overflow of an
`int` count) beyond.  With a window size `W ≥ 1` every completed iteration strictly increases
the offset and the loop has stopped once more than `L` condition checks are allowed; it stops
with a histogram when the signal has at most `INT_MAX` samples, of magnitude at most `B`
with `W * B^2 ≤ 2^1023` (no window can overflow). -/
theorem rms_loop_termination :
    (∀ rate : Nat, win_50ms rate = rate / 200) ∧
    (∀ rate : Nat, 1 ≤ rate → rate ≤ 199 → win_50ms rate = 0) ∧
    (∀ rate : Nat, 200 ≤ rate → 1 ≤ win_50ms rate) ∧
    (∀ content : List ℝ, content ≠ [] →
      (∀ i hist i' h', rms_body Real.sqrt content 0 i hist = some (i', h') → i' = i) ∧
      (∀ fuel, fuel ≤ INT_MAX →
        rms_loop Real.sqrt content 0 fuel 0 (hist_template Real.rpow) = Run.running) ∧
      (∀ fuel, INT_MAX < fuel →
        rms_loop Real.sqrt content 0 fuel 0 (hist_template Real.rpow) = Run.undefined)) ∧
    (∀ (content : List ℝ) (W : Nat), 1 ≤ W →
      (∀ i hist i' h', rms_body Real.sqrt content W i hist = some (i', h') → i < i') ∧
      (∀ fuel, content.length < fuel →
        rms_loop Real.sqrt content W fuel 0 (hist_template Real.rpow) ≠ Run.running) ∧
      (∀ B : ℝ, (∀ x ∈ content, |x| ≤ B) → (W : ℝ) * B ^ 2 ≤ 2 ^ 1023 →
        content.length ≤ INT_MAX → ∃ h, ∀ fuel, content.length < fuel →
          rms_loop Real.sqrt content W fuel 0 (hist_template Real.rpow) = Run.done h)) := by
  refine ⟨fun _ => rfl, ?_, ?_, ?_, ?_⟩
  · intro rate _ h199
    exact Nat.div_eq_of_lt (by omega)
  · intro rate h200
    unfold win_50ms
    rw [Nat.le_div_iff_mul_le (by norm_num)]
    omega
  · intro content hne
    obtain ⟨k, rest, hT⟩ := template_cons
    have hpos : 0 < content.length := List.length_pos.2 hne
    refine ⟨?_, ?_, ?_⟩
    · intro i hist i' h' hb
      exact rms_body_offset Real.sqrt content 0 i hist i' h' hb
    · intro fuel hfuel
      rw [hT, rms_loop_zero Real.sqrt content 0 hpos fuel k 0 rest (Nat.zero_le _),
        if_pos (by omega)]
    · intro fuel hfuel
      rw [hT, rms_loop_zero Real.sqrt content 0 hpos fuel k 0 rest (Nat.zero_le _),
        if_neg (by omega)]
  · intro content W hW
    refine ⟨?_, ?_, ?_⟩
    · intro i hist i' h' hb
      have := rms_body_offset Real.sqrt content W i hist i' h' hb
      omega
    · intro fuel hfuel
      exact rms_loop_halts Real.sqrt content W hW fuel 0 _ (by omega)
    · intro B hB hBW hlen
      obtain ⟨cd, _, _, hr, _⟩ := process_channel_total content B hB W hW hBW hlen
      exact ⟨cd.hist_rms, hr⟩

/-- C10, amended, at sample rates `100` and `44100` and the one-sample signal `[1/2]`: the
window sizes are `0` and `220`; with window size `0` the loop is still running after `1000`
condition checks; with window size `1` it finishes. -/
theorem rms_loop_termination_witness :
    win_50ms 100 = 0 ∧ win_50ms 44100 = 44100 / 200 ∧
    rms_loop Real.sqrt [(1 / 2 : ℝ)] 0 1000 0 (hist_template Real.rpow) = Run.running ∧
    ∃ h, ∀ fuel, [(1 / 2 : ℝ)].length < fuel →
      rms_loop Real.sqrt [(1 / 2 : ℝ)] 1 fuel 0 (hist_template Real.rpow) = Run.done h :=
  ⟨rms_loop_termination.2.1 100 (by decide) (by decide),
   rms_loop_termination.1 44100,
   (rms_loop_termination.2.2.2.1 [(1 / 2 : ℝ)] (by simp)).2.1 1000 (by simp [INT_MAX]),
   (rms_loop_termination.2.2.2.2 [(1 / 2 : ℝ)] 1 le_rfl).2.2 1 (by
      intro x hx
      simp only [List.mem_singleton] at hx
      subst hx
      rw [abs_of_pos (by norm_num : (0 : ℝ) < 1 / 2)]; norm_num) (by norm_num)
    (by simp [INT_MAX])⟩

end Claims

end PlotAudioHistogram
